import Mathlib

/-!
# libparistraceroute: `bitfield.c`

A shallow embedding of the bit-mask container of `libparistraceroute/bitfield.c`
and the properties of its operations.

Conventions of the embedding.

* An `unsigned char` is a `cell_t = Fin 256`; a store into the buffer truncates
  modulo `256` (`to_cell`).
* The buffer `mask` is the list of the bytes that were allocated for it.  A run
  that indexes a byte outside the buffer has no defined result in C: every
  operation returns an `Option`, and `none` stands for such a run.
* A `bitfield_t *` is an `Option bitfield_t`, `none` being the `NULL` pointer.
  The two operands of a binary operator are distinct objects.
* `size_t` values are natural numbers; the one place where the source can
  overflow (`offset_in_bits + num_bits`) is reduced modulo `2 ^ w`, `w` being
  the width of `size_t`.
-/

namespace Bitfield

/-! ## Data model -/

/-- One `unsigned char` of the buffer (`typedef unsigned char cell_t`). -/
abbrev cell_t := Fin 256

/-- Conversion of the value of an `int` expression to `unsigned char`. -/
def to_cell (x : Nat) : cell_t := ⟨x % 256, Nat.mod_lt x (by decide)⟩

/-- Bit pattern (32-bit two's complement) of `~x` for an `int` whose bit
pattern is `x`. -/
def int_not (x : Nat) : Nat := 2 ^ 32 - 1 - x % 2 ^ 32

/-- The structure `bitfield_t`: the byte buffer and the size in bits. -/
structure bitfield_t where
  mask : List cell_t
  size_in_bits : Nat
deriving DecidableEq, Repr

/-- The value of `EINVAL` in `<errno.h>`. -/
def EINVAL : Int := 22

/-- Bit `k` of a buffer: byte `k / 8`, position `k % 8` counted from the least
significant bit; `none` when the byte lies outside the buffer. -/
def mask_bit (mask : List cell_t) (k : Nat) : Option Bool :=
  match mask[k / 8]? with
  | none => none
  | some b => some (b.val.testBit (k % 8))

/-- The buffer has at least the `size_in_bits / 8` bytes that `bitfield_create`
allocates. -/
def allocated (b : bitfield_t) : Prop := b.size_in_bits / 8 ≤ b.mask.length

instance (b : bitfield_t) : Decidable (allocated b) := by
  unfold allocated; infer_instance

/-! ## Allocation -/

/-- The function `bitfield_create`. `calloc_ok` and `malloc_ok` tell whether the
two allocations succeed, `heap` gives the (uninitialised) contents of the fresh
buffer of `size_in_bits / 8` bytes. -/
def bitfield_create (calloc_ok malloc_ok : Bool) (heap : Nat → cell_t)
    (size_in_bits : Nat) : Option bitfield_t :=
  if !calloc_ok then none
  else if !malloc_ok then none
  else some { mask := (List.range (size_in_bits / 8)).map heap, size_in_bits := size_in_bits }

/-! ## Setters -/

/-- The function `bitfield_set_0`:
`mask[offset_in_bits / 8] |= 1 << (offset_in_bits % 8)`. -/
def bitfield_set_0 (mask : List cell_t) (offset_in_bits : Nat) : Option (List cell_t) :=
  match mask[offset_in_bits / 8]? with
  | none => none
  | some b =>
    some (mask.set (offset_in_bits / 8) (to_cell (b.val ||| (1 <<< (offset_in_bits % 8)))))

/-- The function `bitfield_set_1`:
`mask[offset_in_bits / 8] &= ~(1 << (offset_in_bits % 8))`. -/
def bitfield_set_1 (mask : List cell_t) (offset_in_bits : Nat) : Option (List cell_t) :=
  match mask[offset_in_bits / 8]? with
  | none => none
  | some b =>
    some (mask.set (offset_in_bits / 8)
      (to_cell (b.val &&& int_not (1 <<< (offset_in_bits % 8)))))

/-- The function `bitfield_set_mask_bit`: the returned `int` and the bitfield
after the call. -/
def bitfield_set_mask_bit (bitfield : Option bitfield_t) (value : Int)
    (offset_in_bits : Nat) : Option (Int × Option bitfield_t) :=
  match bitfield with
  | none => some (EINVAL, none)
  | some bf =>
    if offset_in_bits ≥ bf.size_in_bits then some (EINVAL, some bf)
    else
      match (if value ≠ 0 then bitfield_set_0 bf.mask offset_in_bits
             else bitfield_set_1 bf.mask offset_in_bits) with
      | none => none
      | some m => some (0, some { bf with mask := m })

/-- The `for` loop of `bitfield_set_mask_bits`, started at `offset` with
`count = offset_end - offset` iterations left. -/
def set_mask_bits_loop (value : Int) : Nat → Nat → List cell_t → Option (List cell_t)
  | 0, _, mask => some mask
  | count + 1, offset, mask =>
    match (if value ≠ 0 then bitfield_set_0 mask offset
           else bitfield_set_1 mask offset) with
    | none => none
    | some m => set_mask_bits_loop value count (offset + 1) m

/-- The function `bitfield_set_mask_bits`, for a `size_t` of `w` bits: the
returned `int` and the bitfield after the call. -/
def bitfield_set_mask_bits (w : Nat) (bitfield : Option bitfield_t) (value : Int)
    (offset_in_bits num_bits : Nat) : Option (Int × Option bitfield_t) :=
  let offset_end := (offset_in_bits + num_bits) % 2 ^ w
  match bitfield with
  | none => some (EINVAL, none)
  | some bf =>
    if (offset_in_bits + num_bits) % 2 ^ w ≥ bf.size_in_bits then some (EINVAL, some bf)
    else if num_bits ≠ 0 then
      match set_mask_bits_loop value (offset_end - offset_in_bits) offset_in_bits bf.mask with
      | none => none
      | some m => some (0, some { bf with mask := m })
    else some (0, some bf)

/-! ## Population count -/

/-- The inner loop of `bitfield_get_num_1` over the bit positions `j`, with
`count = size_cell_in_bits - j` iterations left. -/
def get_num_1_cell (size_in_bits i : Nat) (cur_byte : cell_t) : Nat → Nat → Nat → Nat
  | 0, _, res => res
  | count + 1, j, res =>
    if i * 8 + j = size_in_bits then res
    else
      get_num_1_cell size_in_bits i cur_byte count (j + 1)
        (if cur_byte.val &&& (1 <<< j) ≠ 0 then res + 1 else res)

/-- The outer loop of `bitfield_get_num_1` over the bytes `i`, with
`count = size - i` iterations left. -/
def get_num_1_loop (bf : bitfield_t) : Nat → Nat → Nat → Option Nat
  | 0, _, res => some res
  | count + 1, i, res =>
    match bf.mask[i]? with
    | none => none
    | some cur_byte =>
      get_num_1_loop bf count (i + 1) (get_num_1_cell bf.size_in_bits i cur_byte 8 0 res)

/-- The function `bitfield_get_num_1`. -/
def bitfield_get_num_1 (bitfield : Option bitfield_t) : Option Nat :=
  match bitfield with
  | none => some 0
  | some bf => get_num_1_loop bf (bf.size_in_bits / 8) 0 0

/-! ## Operators -/

/-- The inner loop of `bitfield_and` on byte `i`, with `count` iterations left
from position `j`. -/
def and_last (src : List cell_t) (i : Nat) : Nat → Nat → List cell_t → Option (List cell_t)
  | 0, _, tgt => some tgt
  | count + 1, j, tgt =>
    match src[i]? with
    | none => none
    | some s =>
      if s.val &&& (1 <<< j) = 0 then
        match bitfield_set_0 tgt (8 * i + j) with
        | none => none
        | some tgt1 => and_last src i count (j + 1) tgt1
      else and_last src i count (j + 1) tgt

/-- The outer loop of `bitfield_and` over the bytes, with `count = size - i`
iterations left. -/
def and_loop (src : List cell_t) (size_in_bits size : Nat) :
    Nat → Nat → List cell_t → Option (List cell_t)
  | 0, _, tgt => some tgt
  | count + 1, i, tgt =>
    if i + 1 = size then
      match and_last src i (size_in_bits % 8) 0 tgt with
      | none => none
      | some tgt1 => and_loop src size_in_bits size count (i + 1) tgt1
    else
      match tgt[i]?, src[i]? with
      | some t, some s =>
        and_loop src size_in_bits size count (i + 1) (tgt.set i (to_cell (t.val &&& s.val)))
      | _, _ => none

/-- The function `bitfield_and`: the target after the call. -/
def bitfield_and (tgt src : Option bitfield_t) : Option (Option bitfield_t) :=
  match tgt, src with
  | some t, some s =>
    let size_in_bits := min t.size_in_bits s.size_in_bits
    let size := size_in_bits / 8
    match and_loop s.mask size_in_bits size size 0 t.mask with
    | none => none
    | some m => some (some { t with mask := m })
  | _, _ => some tgt

/-- The inner loop of `bitfield_or` on byte `i`, with `count` iterations left
from position `j`. -/
def or_last (src : List cell_t) (i : Nat) : Nat → Nat → List cell_t → Option (List cell_t)
  | 0, _, tgt => some tgt
  | count + 1, j, tgt =>
    match src[i]? with
    | none => none
    | some s =>
      if s.val &&& (1 <<< j) ≠ 0 then
        match bitfield_set_1 tgt (8 * i + j) with
        | none => none
        | some tgt1 => or_last src i count (j + 1) tgt1
      else or_last src i count (j + 1) tgt

/-- The outer loop of `bitfield_or` over the bytes, with `count = size - i`
iterations left. -/
def or_loop (src : List cell_t) (size_in_bits size : Nat) :
    Nat → Nat → List cell_t → Option (List cell_t)
  | 0, _, tgt => some tgt
  | count + 1, i, tgt =>
    if i + 1 = size then
      match or_last src i (size_in_bits % 8) 0 tgt with
      | none => none
      | some tgt1 => or_loop src size_in_bits size count (i + 1) tgt1
    else
      match tgt[i]?, src[i]? with
      | some t, some s =>
        or_loop src size_in_bits size count (i + 1) (tgt.set i (to_cell (t.val ||| s.val)))
      | _, _ => none

/-- The function `bitfield_or`: the target after the call. -/
def bitfield_or (tgt src : Option bitfield_t) : Option (Option bitfield_t) :=
  match tgt, src with
  | some t, some s =>
    let size_in_bits := min t.size_in_bits s.size_in_bits
    let size := size_in_bits / 8
    match or_loop s.mask size_in_bits size size 0 t.mask with
    | none => none
    | some m => some (some { t with mask := m })
  | _, _ => some tgt

/-- The inner loop of `bitfield_not` on byte `i`, with `count` iterations left
from position `j`. -/
def not_last (i : Nat) : Nat → Nat → List cell_t → Option (List cell_t)
  | 0, _, tgt => some tgt
  | count + 1, j, tgt =>
    match tgt[i]? with
    | none => none
    | some t =>
      match (if t.val &&& (1 <<< j) ≠ 0 then bitfield_set_1 tgt (8 * i + j)
             else bitfield_set_0 tgt (8 * i + j)) with
      | none => none
      | some tgt1 => not_last i count (j + 1) tgt1

/-- The outer loop of `bitfield_not` over the bytes, with `count = size - i`
iterations left. -/
def not_loop (size_in_bits size : Nat) : Nat → Nat → List cell_t → Option (List cell_t)
  | 0, _, tgt => some tgt
  | count + 1, i, tgt =>
    if i + 1 = size then
      match not_last i (size_in_bits % 8) 0 tgt with
      | none => none
      | some tgt1 => not_loop size_in_bits size count (i + 1) tgt1
    else
      match tgt[i]? with
      | none => none
      | some t => not_loop size_in_bits size count (i + 1) (tgt.set i (to_cell (int_not t.val)))

/-- The function `bitfield_not`: the target after the call. -/
def bitfield_not (tgt : Option bitfield_t) : Option (Option bitfield_t) :=
  match tgt with
  | none => some none
  | some t =>
    match not_loop t.size_in_bits (t.size_in_bits / 8) (t.size_in_bits / 8) 0 t.mask with
    | none => none
    | some m => some (some { t with mask := m })

/-- Number of the indexes `k` with `start ≤ k < start + len` whose bit is 1 in the
buffer. -/
def count_1 (mask : List cell_t) (start len : Nat) : Nat :=
  (List.range' start len).countP fun k => mask_bit mask k == some true

/-! ## What the operators do to one bit -/

/-- Bit `k` of the target after `bitfield_and`, when byte `k / 8` is one of the
`size` bytes the loop visits: `t` is the bit of the target before the call. -/
def and_bit (src : List cell_t) (size_in_bits size k : Nat) (t : Option Bool) : Option Bool :=
  if k / 8 + 1 = size then
    if k % 8 < size_in_bits % 8 ∧ mask_bit src k = some false then some true else t
  else t.bind fun x => (mask_bit src k).map fun y => x && y

/-- Bit `k` of the target after `bitfield_or`, when byte `k / 8` is one of the
`size` bytes the loop visits: `t` is the bit of the target before the call. -/
def or_bit (src : List cell_t) (size_in_bits size k : Nat) (t : Option Bool) : Option Bool :=
  if k / 8 + 1 = size then
    if k % 8 < size_in_bits % 8 ∧ mask_bit src k = some true then some false else t
  else t.bind fun x => (mask_bit src k).map fun y => x || y

/-! ## Bits of a byte -/

theorem cell_and_shift (b : cell_t) (j : Nat) :
    b.val &&& (1 <<< j) ≠ 0 ↔ b.val.testBit j = true := by
  rw [Nat.one_shiftLeft]
  constructor
  · intro h
    by_contra hb
    apply h
    apply Nat.eq_of_testBit_eq
    intro i
    simp only [Nat.testBit_and, Nat.testBit_two_pow, Nat.zero_testBit]
    by_cases hij : j = i
    · subst hij; simp [hb]
    · simp [hij]
  · intro hb h
    have := congrArg (fun x => x.testBit j) h
    simp [hb, Nat.testBit_two_pow] at this

theorem cell_testBit_high (b : cell_t) (k : Nat) (hk : 8 ≤ k) : b.val.testBit k = false := by
  apply Nat.testBit_lt_two_pow
  calc b.val < 2 ^ 8 := b.isLt
    _ ≤ 2 ^ k := Nat.pow_le_pow_right (by decide) hk

theorem cell_ext (a b : cell_t) (h : ∀ k, k < 8 → a.val.testBit k = b.val.testBit k) : a = b := by
  apply Fin.ext
  apply Nat.eq_of_testBit_eq
  intro i
  by_cases hi : i < 8
  · exact h i hi
  · rw [cell_testBit_high a i (by omega), cell_testBit_high b i (by omega)]

theorem to_cell_testBit (x k : Nat) (hk : k < 8) : (to_cell x).val.testBit k = x.testBit k := by
  show (x % 2 ^ 8).testBit k = x.testBit k
  rw [Nat.testBit_mod_two_pow]
  simp [hk]

theorem int_not_testBit (x k : Nat) (hk : k < 8) : (int_not x).testBit k = !x.testBit k := by
  have hx : x % 2 ^ 32 < 2 ^ 32 := Nat.mod_lt _ (by decide)
  have h := Nat.testBit_two_pow_sub_succ hx k
  have e : int_not x = 2 ^ 32 - (x % 2 ^ 32 + 1) := by unfold int_not; omega
  rw [e, h, Nat.testBit_mod_two_pow]
  have h1 : k < 32 := by omega
  simp [h1]

theorem cell_set_testBit (b : cell_t) (j k : Nat) (hk : k < 8) :
    (to_cell (b.val ||| (1 <<< j))).val.testBit k = (b.val.testBit k || decide (j = k)) := by
  rw [to_cell_testBit _ _ hk, Nat.testBit_or, Nat.one_shiftLeft, Nat.testBit_two_pow]

theorem cell_clear_testBit (b : cell_t) (j k : Nat) (hk : k < 8) :
    (to_cell (b.val &&& int_not (1 <<< j))).val.testBit k
      = (b.val.testBit k && !decide (j = k)) := by
  rw [to_cell_testBit _ _ hk, Nat.testBit_and, int_not_testBit _ _ hk, Nat.one_shiftLeft,
    Nat.testBit_two_pow]

theorem cell_not_testBit (b : cell_t) (k : Nat) (hk : k < 8) :
    (to_cell (int_not b.val)).val.testBit k = !b.val.testBit k := by
  rw [to_cell_testBit _ _ hk, int_not_testBit _ _ hk]

theorem cell_and_testBit (a b : cell_t) (k : Nat) (hk : k < 8) :
    (to_cell (a.val &&& b.val)).val.testBit k = (a.val.testBit k && b.val.testBit k) := by
  rw [to_cell_testBit _ _ hk, Nat.testBit_and]

theorem cell_or_testBit (a b : cell_t) (k : Nat) (hk : k < 8) :
    (to_cell (a.val ||| b.val)).val.testBit k = (a.val.testBit k || b.val.testBit k) := by
  rw [to_cell_testBit _ _ hk, Nat.testBit_or]

/-! ## Bits of a buffer -/

theorem mask_bit_eq_none (mask : List cell_t) (k : Nat) :
    mask_bit mask k = none ↔ mask.length ≤ k / 8 := by
  unfold mask_bit
  cases h : mask[k / 8]? with
  | none => simpa using h
  | some b =>
    have := (List.getElem?_eq_some_iff.mp h).1
    simp; omega

theorem mask_bit_set (mask : List cell_t) (i : Nat) (c : cell_t) (k : Nat) (hi : i < mask.length) :
    mask_bit (mask.set i c) k
      = if k / 8 = i then some (c.val.testBit (k % 8)) else mask_bit mask k := by
  unfold mask_bit
  rw [List.getElem?_set]
  by_cases h : i = k / 8
  · subst h; simp [hi]
  · have h2 : ¬ k / 8 = i := fun e => h e.symm
    simp [h, h2]

theorem mask_ext (m1 m2 : List cell_t) (hl : m1.length = m2.length)
    (h : ∀ k, mask_bit m1 k = mask_bit m2 k) : m1 = m2 := by
  apply List.ext_getElem?
  intro n
  by_cases hn : n < m1.length
  · have hn2 : n < m2.length := hl ▸ hn
    rw [List.getElem?_eq_getElem hn, List.getElem?_eq_getElem hn2]
    congr 1
    apply cell_ext
    intro k hk
    have hk8 : (8 * n + k) / 8 = n := by omega
    have hk9 : (8 * n + k) % 8 = k := by omega
    have := h (8 * n + k)
    unfold mask_bit at this
    rw [hk8, hk9, List.getElem?_eq_getElem hn, List.getElem?_eq_getElem hn2] at this
    simpa using this
  · rw [List.getElem?_eq_none (by omega), List.getElem?_eq_none (by omega)]

theorem set_0_some (mask : List cell_t) (o : Nat) (h : o / 8 < mask.length) :
    ∃ m, bitfield_set_0 mask o = some m := by
  unfold bitfield_set_0
  rw [List.getElem?_eq_getElem h]
  exact ⟨_, rfl⟩

theorem set_1_some (mask : List cell_t) (o : Nat) (h : o / 8 < mask.length) :
    ∃ m, bitfield_set_1 mask o = some m := by
  unfold bitfield_set_1
  rw [List.getElem?_eq_getElem h]
  exact ⟨_, rfl⟩

theorem set_0_spec (mask m : List cell_t) (o : Nat) (h : bitfield_set_0 mask o = some m) :
    m.length = mask.length ∧ o / 8 < mask.length ∧
    ∀ k, mask_bit m k = if k = o then some true else mask_bit mask k := by
  unfold bitfield_set_0 at h
  cases hb : mask[o / 8]? with
  | none => rw [hb] at h; simp at h
  | some b =>
    rw [hb] at h
    simp only [Option.some.injEq] at h
    subst h
    have hlt := (List.getElem?_eq_some_iff.mp hb).1
    refine ⟨by simp, hlt, ?_⟩
    intro k
    rw [mask_bit_set _ _ _ _ hlt]
    by_cases hk : k = o
    · subst hk
      simp [cell_set_testBit _ _ _ (Nat.mod_lt k (by decide : 0 < 8))]
    · by_cases hq : k / 8 = o / 8
      · have hr : o % 8 ≠ k % 8 := by omega
        simp only [hq, if_true, hk, if_false]
        rw [cell_set_testBit _ _ _ (Nat.mod_lt k (by decide : 0 < 8))]
        unfold mask_bit
        rw [hq, hb]
        simp [hr]
      · simp [hq, hk]

theorem set_1_spec (mask m : List cell_t) (o : Nat) (h : bitfield_set_1 mask o = some m) :
    m.length = mask.length ∧ o / 8 < mask.length ∧
    ∀ k, mask_bit m k = if k = o then some false else mask_bit mask k := by
  unfold bitfield_set_1 at h
  cases hb : mask[o / 8]? with
  | none => rw [hb] at h; simp at h
  | some b =>
    rw [hb] at h
    simp only [Option.some.injEq] at h
    subst h
    have hlt := (List.getElem?_eq_some_iff.mp hb).1
    refine ⟨by simp, hlt, ?_⟩
    intro k
    rw [mask_bit_set _ _ _ _ hlt]
    by_cases hk : k = o
    · subst hk
      simp [cell_clear_testBit _ _ _ (Nat.mod_lt k (by decide : 0 < 8))]
    · by_cases hq : k / 8 = o / 8
      · have hr : o % 8 ≠ k % 8 := by omega
        simp only [hq, if_true, hk, if_false]
        rw [cell_clear_testBit _ _ _ (Nat.mod_lt k (by decide : 0 < 8))]
        unfold mask_bit
        rw [hq, hb]
        simp [hr]
      · simp [hq, hk]

theorem mask_bit_of_getElem (tgt : List cell_t) (i j : Nat) (t : cell_t)
    (h : tgt[i]? = some t) (hj : j < 8) :
    mask_bit tgt (8 * i + j) = some (t.val.testBit j) := by
  unfold mask_bit
  have h1 : (8 * i + j) / 8 = i := by omega
  have h2 : (8 * i + j) % 8 = j := by omega
  rw [h1, h2, h]

/-! ## The loops of `bitfield_not` -/

theorem not_last_spec (i : Nat) : ∀ (count j : Nat) (tgt : List cell_t),
    i < tgt.length → j + count ≤ 8 →
    ∃ m, not_last i count j tgt = some m ∧ m.length = tgt.length ∧
      ∀ k, mask_bit m k =
        if 8 * i + j ≤ k ∧ k < 8 * i + j + count then (mask_bit tgt k).map (fun b => !b)
        else mask_bit tgt k := by
  intro count
  induction count with
  | zero =>
    intro j tgt _ _
    refine ⟨tgt, rfl, rfl, ?_⟩
    intro k
    have : ¬ (8 * i + j ≤ k ∧ k < 8 * i + j + 0) := by omega
    exact (if_neg this).symm
  | succ c ih =>
    intro j tgt hi hj
    have hj8 : j < 8 := by omega
    have hq : (8 * i + j) / 8 < tgt.length := by
      have : (8 * i + j) / 8 = i := by omega
      omega
    have ht : tgt[i]? = some tgt[i] := List.getElem?_eq_getElem hi
    have hbit := mask_bit_of_getElem tgt i j tgt[i] ht hj8
    -- one iteration flips bit `8 * i + j`
    have step : ∃ t1, (if (tgt[i]).val &&& (1 <<< j) ≠ 0 then bitfield_set_1 tgt (8 * i + j)
          else bitfield_set_0 tgt (8 * i + j)) = some t1 ∧ t1.length = tgt.length ∧
        ∀ k, mask_bit t1 k =
          if k = 8 * i + j then (mask_bit tgt k).map (fun b => !b) else mask_bit tgt k := by
      by_cases hc : (tgt[i]).val &&& (1 <<< j) ≠ 0
      · obtain ⟨t1, h1⟩ := set_1_some tgt (8 * i + j) hq
        have sp := set_1_spec tgt t1 _ h1
        refine ⟨t1, by rw [if_pos hc]; exact h1, sp.1, ?_⟩
        intro k
        rw [sp.2.2 k]
        by_cases hk : k = 8 * i + j
        · subst hk
          have := (cell_and_shift _ _).mp hc
          simp [hbit, this]
        · simp [hk]
      · obtain ⟨t1, h1⟩ := set_0_some tgt (8 * i + j) hq
        have sp := set_0_spec tgt t1 _ h1
        refine ⟨t1, by rw [if_neg hc]; exact h1, sp.1, ?_⟩
        intro k
        rw [sp.2.2 k]
        by_cases hk : k = 8 * i + j
        · subst hk
          have : (tgt[i]).val.testBit j = false := by
            cases hb : (tgt[i]).val.testBit j with
            | false => rfl
            | true => exact absurd ((cell_and_shift _ _).mpr hb) hc
          simp [hbit, this]
        · simp [hk]
    obtain ⟨t1, e1, l1, b1⟩ := step
    obtain ⟨m, em, lm, bm⟩ := ih (j + 1) t1 (by omega) (by omega)
    refine ⟨m, ?_, by omega, ?_⟩
    · simp only [not_last, ht, e1]
      exact em
    · intro k
      rw [bm k, b1 k]
      by_cases hk : k = 8 * i + j
      · subst hk
        have h1 : ¬ (8 * i + (j + 1) ≤ 8 * i + j ∧ 8 * i + j < 8 * i + (j + 1) + c) := by omega
        have h2 : 8 * i + j ≤ 8 * i + j ∧ 8 * i + j < 8 * i + j + (c + 1) := by omega
        simp [h1, h2]
      · by_cases hr : 8 * i + (j + 1) ≤ k ∧ k < 8 * i + (j + 1) + c
        · have h2 : 8 * i + j ≤ k ∧ k < 8 * i + j + (c + 1) := by omega
          simp [hr, h2, hk]
        · have h2 : ¬ (8 * i + j ≤ k ∧ k < 8 * i + j + (c + 1)) := by omega
          simp [hr, h2, hk]

theorem not_loop_spec (size_in_bits size : Nat) : ∀ (count i : Nat) (tgt : List cell_t),
    i + count ≤ tgt.length →
    ∃ m, not_loop size_in_bits size count i tgt = some m ∧ m.length = tgt.length ∧
      ∀ k, mask_bit m k =
        if i ≤ k / 8 ∧ k / 8 < i + count ∧ (k / 8 + 1 = size → k % 8 < size_in_bits % 8)
        then (mask_bit tgt k).map (fun b => !b)
        else mask_bit tgt k := by
  intro count
  induction count with
  | zero =>
    intro i tgt _
    refine ⟨tgt, rfl, rfl, ?_⟩
    intro k
    have : ¬ (i ≤ k / 8 ∧ k / 8 < i + 0 ∧ (k / 8 + 1 = size → k % 8 < size_in_bits % 8)) := by
      omega
    exact (if_neg this).symm
  | succ c ih =>
    intro i tgt hi
    have hlt : i < tgt.length := by omega
    have ht : tgt[i]? = some tgt[i] := List.getElem?_eq_getElem hlt
    have hr8 : size_in_bits % 8 < 8 := Nat.mod_lt _ (by decide)
    -- the body of the loop on byte `i`
    have step : ∃ t1, (if i + 1 = size then not_last i (size_in_bits % 8) 0 tgt
          else some (tgt.set i (to_cell (int_not (tgt[i]).val)))) = some t1 ∧
        t1.length = tgt.length ∧
        ∀ k, mask_bit t1 k =
          if k / 8 = i ∧ (k / 8 + 1 = size → k % 8 < size_in_bits % 8)
          then (mask_bit tgt k).map (fun b => !b) else mask_bit tgt k := by
      by_cases hs : i + 1 = size
      · obtain ⟨t1, e1, l1, b1⟩ := not_last_spec i (size_in_bits % 8) 0 tgt hlt (by omega)
        refine ⟨t1, by rw [if_pos hs]; exact e1, l1, ?_⟩
        intro k
        rw [b1 k]
        by_cases hk : k / 8 = i ∧ (k / 8 + 1 = size → k % 8 < size_in_bits % 8)
        · have : 8 * i + 0 ≤ k ∧ k < 8 * i + 0 + size_in_bits % 8 := by
            have := hk.2 (by omega)
            omega
          rw [if_pos this, if_pos hk]
        · have : ¬ (8 * i + 0 ≤ k ∧ k < 8 * i + 0 + size_in_bits % 8) := by
            intro hh
            apply hk
            refine ⟨by omega, fun _ => by omega⟩
          rw [if_neg this, if_neg hk]
      · refine ⟨_, by rw [if_neg hs], by simp, ?_⟩
        intro k
        rw [mask_bit_set _ _ _ _ hlt]
        by_cases hk : k / 8 = i
        · have h2 : k / 8 = i ∧ (k / 8 + 1 = size → k % 8 < size_in_bits % 8) :=
            ⟨hk, fun e => absurd (hk ▸ e) hs⟩
          rw [if_pos hk, if_pos h2, cell_not_testBit _ _ (Nat.mod_lt k (by decide : 0 < 8))]
          unfold mask_bit
          rw [hk, ht]
          rfl
        · have h2 : ¬ (k / 8 = i ∧ (k / 8 + 1 = size → k % 8 < size_in_bits % 8)) :=
            fun hh => hk hh.1
          rw [if_neg hk, if_neg h2]
    obtain ⟨t1, e1, l1, b1⟩ := step
    obtain ⟨m, em, lm, bm⟩ := ih (i + 1) t1 (by omega)
    refine ⟨m, ?_, by omega, ?_⟩
    · by_cases hs : i + 1 = size
      · rw [if_pos hs] at e1
        simp only [not_loop, if_pos hs, e1]
        exact em
      · rw [if_neg hs] at e1
        simp only [Option.some.injEq] at e1
        simp only [not_loop, if_neg hs, ht, e1]
        exact em
    · intro k
      rw [bm k, b1 k]
      by_cases hk : k / 8 = i
      · have h1 : ¬ (i + 1 ≤ k / 8 ∧ k / 8 < i + 1 + c ∧
            (k / 8 + 1 = size → k % 8 < size_in_bits % 8)) := by omega
        rw [if_neg h1]
        by_cases hp : k / 8 + 1 = size → k % 8 < size_in_bits % 8
        · rw [if_pos ⟨hk, hp⟩, if_pos ⟨by omega, by omega, hp⟩]
        · rw [if_neg (fun hh => hp hh.2), if_neg (fun hh => hp hh.2.2)]
      · have h0 : ¬ (k / 8 = i ∧ (k / 8 + 1 = size → k % 8 < size_in_bits % 8)) :=
          fun hh => hk hh.1
        by_cases hp : i + 1 ≤ k / 8 ∧ k / 8 < i + 1 + c ∧
            (k / 8 + 1 = size → k % 8 < size_in_bits % 8)
        · rw [if_pos hp, if_neg h0, if_pos ⟨by omega, by omega, hp.2.2⟩]
        · rw [if_neg hp, if_neg h0, if_neg]
          intro hh
          exact hp ⟨by omega, by omega, hh.2.2⟩

/-! ## The loops of `bitfield_and` -/

theorem and_last_spec (src : List cell_t) (i : Nat) : ∀ (count j : Nat) (tgt : List cell_t),
    i < tgt.length → i < src.length → j + count ≤ 8 →
    ∃ m, and_last src i count j tgt = some m ∧ m.length = tgt.length ∧
      ∀ k, mask_bit m k =
        if (8 * i + j ≤ k ∧ k < 8 * i + j + count) ∧ mask_bit src k = some false
        then some true else mask_bit tgt k := by
  intro count
  induction count with
  | zero =>
    intro j tgt _ _ _
    refine ⟨tgt, rfl, rfl, ?_⟩
    intro k
    have : ¬ ((8 * i + j ≤ k ∧ k < 8 * i + j + 0) ∧ mask_bit src k = some false) := by omega
    exact (if_neg this).symm
  | succ c ih =>
    intro j tgt hi hs hj
    have hj8 : j < 8 := by omega
    have hq : (8 * i + j) / 8 < tgt.length := by
      have : (8 * i + j) / 8 = i := by omega
      omega
    have hsrc : src[i]? = some src[i] := List.getElem?_eq_getElem hs
    have hbit := mask_bit_of_getElem src i j src[i] hsrc hj8
    -- one iteration
    have step : ∃ t1, (if (src[i]).val &&& (1 <<< j) = 0 then bitfield_set_0 tgt (8 * i + j)
          else some tgt) = some t1 ∧ t1.length = tgt.length ∧
        ∀ k, mask_bit t1 k =
          if k = 8 * i + j ∧ mask_bit src k = some false then some true
          else mask_bit tgt k := by
      by_cases hc : (src[i]).val &&& (1 <<< j) = 0
      · obtain ⟨t1, h1⟩ := set_0_some tgt (8 * i + j) hq
        have sp := set_0_spec tgt t1 _ h1
        refine ⟨t1, by rw [if_pos hc]; exact h1, sp.1, ?_⟩
        intro k
        rw [sp.2.2 k]
        by_cases hk : k = 8 * i + j
        · subst hk
          have hv : (src[i]).val.testBit j = false := by
            cases hb : (src[i]).val.testBit j with
            | false => rfl
            | true => exact absurd hc ((cell_and_shift _ _).mpr hb)
          rw [hbit, hv]
          simp
        · simp [hk]
      · refine ⟨tgt, by rw [if_neg hc], rfl, ?_⟩
        intro k
        by_cases hk : k = 8 * i + j
        · subst hk
          have hv : (src[i]).val.testBit j = !false := by
            have := (cell_and_shift _ _).mp hc
            simpa using this
          rw [hbit, hv]
          simp
        · simp [hk]
    obtain ⟨t1, e1, l1, b1⟩ := step
    obtain ⟨m, em, lm, bm⟩ := ih (j + 1) t1 (by omega) hs (by omega)
    refine ⟨m, ?_, by omega, ?_⟩
    · by_cases hc : (src[i]).val &&& (1 <<< j) = 0
      · rw [if_pos hc] at e1
        simp only [and_last, hsrc, if_pos hc, e1]
        exact em
      · rw [if_neg hc] at e1
        simp only [Option.some.injEq] at e1
        subst e1
        simp only [and_last, hsrc, if_neg hc]
        exact em
    · intro k
      rw [bm k, b1 k]
      by_cases hv : mask_bit src k = some false
      · by_cases hk : k = 8 * i + j
        · subst hk
          have h2 : 8 * i + j ≤ 8 * i + j ∧ 8 * i + j < 8 * i + j + (c + 1) := by omega
          simp [hv, h2]
        · by_cases hr : 8 * i + (j + 1) ≤ k ∧ k < 8 * i + (j + 1) + c
          · have h2 : 8 * i + j ≤ k ∧ k < 8 * i + j + (c + 1) := by omega
            simp [hr, h2, hv]
          · have h2 : ¬ (8 * i + j ≤ k ∧ k < 8 * i + j + (c + 1)) := by omega
            simp [hr, h2, hk]
      · simp [hv]

theorem and_loop_spec (src : List cell_t) (size_in_bits size : Nat) :
    ∀ (count i : Nat) (tgt : List cell_t),
    i + count ≤ tgt.length → i + count ≤ src.length →
    ∃ m, and_loop src size_in_bits size count i tgt = some m ∧ m.length = tgt.length ∧
      ∀ k, mask_bit m k =
        if i ≤ k / 8 ∧ k / 8 < i + count
        then and_bit src size_in_bits size k (mask_bit tgt k)
        else mask_bit tgt k := by
  intro count
  induction count with
  | zero =>
    intro i tgt _ _
    refine ⟨tgt, rfl, rfl, ?_⟩
    intro k
    have : ¬ (i ≤ k / 8 ∧ k / 8 < i + 0) := by omega
    exact (if_neg this).symm
  | succ c ih =>
    intro i tgt hi hs
    have hlt : i < tgt.length := by omega
    have hls : i < src.length := by omega
    have ht : tgt[i]? = some tgt[i] := List.getElem?_eq_getElem hlt
    have hsrc : src[i]? = some src[i] := List.getElem?_eq_getElem hls
    have hr8 : size_in_bits % 8 < 8 := Nat.mod_lt _ (by decide)
    -- the body of the loop on byte `i`
    have step : ∃ t1, (if i + 1 = size then and_last src i (size_in_bits % 8) 0 tgt
          else some (tgt.set i (to_cell ((tgt[i]).val &&& (src[i]).val)))) = some t1 ∧
        t1.length = tgt.length ∧
        ∀ k, mask_bit t1 k =
          if k / 8 = i then and_bit src size_in_bits size k (mask_bit tgt k)
          else mask_bit tgt k := by
      by_cases hz : i + 1 = size
      · obtain ⟨t1, e1, l1, b1⟩ := and_last_spec src i (size_in_bits % 8) 0 tgt hlt hls (by omega)
        refine ⟨t1, by rw [if_pos hz]; exact e1, l1, ?_⟩
        intro k
        rw [b1 k]
        by_cases hk : k / 8 = i
        · have hz2 : k / 8 + 1 = size := by omega
          rw [if_pos hk]
          unfold and_bit
          rw [if_pos hz2]
          by_cases hv : mask_bit src k = some false
          · by_cases hp : k % 8 < size_in_bits % 8
            · rw [if_pos ⟨by omega, hv⟩, if_pos ⟨hp, hv⟩]
            · rw [if_neg (fun hh => hp (by omega)), if_neg (fun hh => hp hh.1)]
          · rw [if_neg (fun hh => hv hh.2), if_neg (fun hh => hv hh.2)]
        · rw [if_neg hk, if_neg (fun hh => hk (by omega))]
      · refine ⟨_, by rw [if_neg hz], by simp, ?_⟩
        intro k
        rw [mask_bit_set _ _ _ _ hlt]
        by_cases hk : k / 8 = i
        · have hz2 : ¬ k / 8 + 1 = size := by omega
          rw [if_pos hk, if_pos hk, cell_and_testBit _ _ _ (Nat.mod_lt k (by decide : 0 < 8))]
          unfold and_bit
          rw [if_neg hz2]
          unfold mask_bit
          rw [hk, ht, hsrc]
          rfl
        · rw [if_neg hk, if_neg hk]
    obtain ⟨t1, e1, l1, b1⟩ := step
    obtain ⟨m, em, lm, bm⟩ := ih (i + 1) t1 (by omega) (by omega)
    refine ⟨m, ?_, by omega, ?_⟩
    · by_cases hz : i + 1 = size
      · rw [if_pos hz] at e1
        simp only [and_loop, if_pos hz, e1]
        exact em
      · rw [if_neg hz] at e1
        simp only [Option.some.injEq] at e1
        subst e1
        simp only [and_loop, if_neg hz, ht, hsrc]
        exact em
    · intro k
      rw [bm k, b1 k]
      by_cases hk : k / 8 = i
      · rw [if_neg (by omega), if_pos hk, if_pos (by omega)]
      · rw [if_neg hk]
        by_cases hp : i + 1 ≤ k / 8 ∧ k / 8 < i + 1 + c
        · rw [if_pos hp, if_pos (by omega)]
        · rw [if_neg hp, if_neg (by omega)]

/-! ## The loops of `bitfield_or` -/

theorem or_last_spec (src : List cell_t) (i : Nat) : ∀ (count j : Nat) (tgt : List cell_t),
    i < tgt.length → i < src.length → j + count ≤ 8 →
    ∃ m, or_last src i count j tgt = some m ∧ m.length = tgt.length ∧
      ∀ k, mask_bit m k =
        if (8 * i + j ≤ k ∧ k < 8 * i + j + count) ∧ mask_bit src k = some true
        then some false else mask_bit tgt k := by
  intro count
  induction count with
  | zero =>
    intro j tgt _ _ _
    refine ⟨tgt, rfl, rfl, ?_⟩
    intro k
    have : ¬ ((8 * i + j ≤ k ∧ k < 8 * i + j + 0) ∧ mask_bit src k = some true) := by omega
    exact (if_neg this).symm
  | succ c ih =>
    intro j tgt hi hs hj
    have hj8 : j < 8 := by omega
    have hq : (8 * i + j) / 8 < tgt.length := by
      have : (8 * i + j) / 8 = i := by omega
      omega
    have hsrc : src[i]? = some src[i] := List.getElem?_eq_getElem hs
    have hbit := mask_bit_of_getElem src i j src[i] hsrc hj8
    -- one iteration
    have step : ∃ t1, (if (src[i]).val &&& (1 <<< j) ≠ 0 then bitfield_set_1 tgt (8 * i + j)
          else some tgt) = some t1 ∧ t1.length = tgt.length ∧
        ∀ k, mask_bit t1 k =
          if k = 8 * i + j ∧ mask_bit src k = some true then some false
          else mask_bit tgt k := by
      by_cases hc : (src[i]).val &&& (1 <<< j) ≠ 0
      · obtain ⟨t1, h1⟩ := set_1_some tgt (8 * i + j) hq
        have sp := set_1_spec tgt t1 _ h1
        refine ⟨t1, by rw [if_pos hc]; exact h1, sp.1, ?_⟩
        intro k
        rw [sp.2.2 k]
        by_cases hk : k = 8 * i + j
        · subst hk
          have hv : (src[i]).val.testBit j = true := by
            exact (cell_and_shift _ _).mp hc
          rw [hbit, hv]
          simp
        · simp [hk]
      · refine ⟨tgt, by rw [if_neg hc], rfl, ?_⟩
        intro k
        by_cases hk : k = 8 * i + j
        · subst hk
          have hv : (src[i]).val.testBit j = !true := by
            cases hb : (src[i]).val.testBit j with
            | false => rfl
            | true => exact absurd ((cell_and_shift _ _).mpr hb) hc
          rw [hbit, hv]
          simp
        · simp [hk]
    obtain ⟨t1, e1, l1, b1⟩ := step
    obtain ⟨m, em, lm, bm⟩ := ih (j + 1) t1 (by omega) hs (by omega)
    refine ⟨m, ?_, by omega, ?_⟩
    · by_cases hc : (src[i]).val &&& (1 <<< j) ≠ 0
      · rw [if_pos hc] at e1
        simp only [or_last, hsrc, if_pos hc, e1]
        exact em
      · rw [if_neg hc] at e1
        simp only [Option.some.injEq] at e1
        subst e1
        simp only [or_last, hsrc, if_neg hc]
        exact em
    · intro k
      rw [bm k, b1 k]
      by_cases hv : mask_bit src k = some true
      · by_cases hk : k = 8 * i + j
        · subst hk
          have h2 : 8 * i + j ≤ 8 * i + j ∧ 8 * i + j < 8 * i + j + (c + 1) := by omega
          simp [hv, h2]
        · by_cases hr : 8 * i + (j + 1) ≤ k ∧ k < 8 * i + (j + 1) + c
          · have h2 : 8 * i + j ≤ k ∧ k < 8 * i + j + (c + 1) := by omega
            simp [hr, h2, hv]
          · have h2 : ¬ (8 * i + j ≤ k ∧ k < 8 * i + j + (c + 1)) := by omega
            simp [hr, h2, hk]
      · simp [hv]

theorem or_loop_spec (src : List cell_t) (size_in_bits size : Nat) :
    ∀ (count i : Nat) (tgt : List cell_t),
    i + count ≤ tgt.length → i + count ≤ src.length →
    ∃ m, or_loop src size_in_bits size count i tgt = some m ∧ m.length = tgt.length ∧
      ∀ k, mask_bit m k =
        if i ≤ k / 8 ∧ k / 8 < i + count
        then or_bit src size_in_bits size k (mask_bit tgt k)
        else mask_bit tgt k := by
  intro count
  induction count with
  | zero =>
    intro i tgt _ _
    refine ⟨tgt, rfl, rfl, ?_⟩
    intro k
    have : ¬ (i ≤ k / 8 ∧ k / 8 < i + 0) := by omega
    exact (if_neg this).symm
  | succ c ih =>
    intro i tgt hi hs
    have hlt : i < tgt.length := by omega
    have hls : i < src.length := by omega
    have ht : tgt[i]? = some tgt[i] := List.getElem?_eq_getElem hlt
    have hsrc : src[i]? = some src[i] := List.getElem?_eq_getElem hls
    have hr8 : size_in_bits % 8 < 8 := Nat.mod_lt _ (by decide)
    -- the body of the loop on byte `i`
    have step : ∃ t1, (if i + 1 = size then or_last src i (size_in_bits % 8) 0 tgt
          else some (tgt.set i (to_cell ((tgt[i]).val ||| (src[i]).val)))) = some t1 ∧
        t1.length = tgt.length ∧
        ∀ k, mask_bit t1 k =
          if k / 8 = i then or_bit src size_in_bits size k (mask_bit tgt k)
          else mask_bit tgt k := by
      by_cases hz : i + 1 = size
      · obtain ⟨t1, e1, l1, b1⟩ := or_last_spec src i (size_in_bits % 8) 0 tgt hlt hls (by omega)
        refine ⟨t1, by rw [if_pos hz]; exact e1, l1, ?_⟩
        intro k
        rw [b1 k]
        by_cases hk : k / 8 = i
        · have hz2 : k / 8 + 1 = size := by omega
          rw [if_pos hk]
          unfold or_bit
          rw [if_pos hz2]
          by_cases hv : mask_bit src k = some true
          · by_cases hp : k % 8 < size_in_bits % 8
            · rw [if_pos ⟨by omega, hv⟩, if_pos ⟨hp, hv⟩]
            · rw [if_neg (fun hh => hp (by omega)), if_neg (fun hh => hp hh.1)]
          · rw [if_neg (fun hh => hv hh.2), if_neg (fun hh => hv hh.2)]
        · rw [if_neg hk, if_neg (fun hh => hk (by omega))]
      · refine ⟨_, by rw [if_neg hz], by simp, ?_⟩
        intro k
        rw [mask_bit_set _ _ _ _ hlt]
        by_cases hk : k / 8 = i
        · have hz2 : ¬ k / 8 + 1 = size := by omega
          rw [if_pos hk, if_pos hk, cell_or_testBit _ _ _ (Nat.mod_lt k (by decide : 0 < 8))]
          unfold or_bit
          rw [if_neg hz2]
          unfold mask_bit
          rw [hk, ht, hsrc]
          rfl
        · rw [if_neg hk, if_neg hk]
    obtain ⟨t1, e1, l1, b1⟩ := step
    obtain ⟨m, em, lm, bm⟩ := ih (i + 1) t1 (by omega) (by omega)
    refine ⟨m, ?_, by omega, ?_⟩
    · by_cases hz : i + 1 = size
      · rw [if_pos hz] at e1
        simp only [or_loop, if_pos hz, e1]
        exact em
      · rw [if_neg hz] at e1
        simp only [Option.some.injEq] at e1
        subst e1
        simp only [or_loop, if_neg hz, ht, hsrc]
        exact em
    · intro k
      rw [bm k, b1 k]
      by_cases hk : k / 8 = i
      · rw [if_neg (by omega), if_pos hk, if_pos (by omega)]
      · rw [if_neg hk]
        by_cases hp : i + 1 ≤ k / 8 ∧ k / 8 < i + 1 + c
        · rw [if_pos hp, if_pos (by omega)]
        · rw [if_neg hp, if_neg (by omega)]

/-! ## The loop of `bitfield_set_mask_bits` -/

theorem set_mask_bits_loop_spec (value : Int) : ∀ (count offset : Nat) (mask : List cell_t),
    (∀ o, offset ≤ o → o < offset + count → o / 8 < mask.length) →
    ∃ m, set_mask_bits_loop value count offset mask = some m ∧ m.length = mask.length ∧
      ∀ k, mask_bit m k =
        if offset ≤ k ∧ k < offset + count then some (decide (value ≠ 0)) else mask_bit mask k := by
  intro count
  induction count with
  | zero =>
    intro offset mask _
    refine ⟨mask, rfl, rfl, ?_⟩
    intro k
    have : ¬ (offset ≤ k ∧ k < offset + 0) := by omega
    exact (if_neg this).symm
  | succ c ih =>
    intro offset mask hb
    have hq : offset / 8 < mask.length := hb offset (Nat.le_refl _) (by omega)
    have step : ∃ t1, (if value ≠ 0 then bitfield_set_0 mask offset
          else bitfield_set_1 mask offset) = some t1 ∧ t1.length = mask.length ∧
        ∀ k, mask_bit t1 k =
          if k = offset then some (decide (value ≠ 0)) else mask_bit mask k := by
      by_cases hv : value ≠ 0
      · obtain ⟨t1, h1⟩ := set_0_some mask offset hq
        have sp := set_0_spec mask t1 _ h1
        refine ⟨t1, by rw [if_pos hv]; exact h1, sp.1, ?_⟩
        intro k
        rw [sp.2.2 k]
        simp [hv]
      · obtain ⟨t1, h1⟩ := set_1_some mask offset hq
        have sp := set_1_spec mask t1 _ h1
        refine ⟨t1, by rw [if_neg hv]; exact h1, sp.1, ?_⟩
        intro k
        rw [sp.2.2 k]
        simp [hv]
    obtain ⟨t1, e1, l1, b1⟩ := step
    obtain ⟨m, em, lm, bm⟩ := ih (offset + 1) t1 (by
      intro o h1 h2
      rw [l1]
      exact hb o (by omega) (by omega))
    refine ⟨m, ?_, by omega, ?_⟩
    · simp only [set_mask_bits_loop, e1]
      exact em
    · intro k
      rw [bm k, b1 k]
      by_cases hk : k = offset
      · subst hk
        rw [if_neg (by omega), if_pos rfl, if_pos (by omega)]
      · rw [if_neg hk]
        by_cases hp : offset + 1 ≤ k ∧ k < offset + 1 + c
        · rw [if_pos hp, if_pos (by omega)]
        · rw [if_neg hp, if_neg (by omega)]

/-! ## The loops of `bitfield_get_num_1` -/

theorem get_num_1_cell_spec (mask : List cell_t) (size_in_bits i : Nat) (cur_byte : cell_t)
    (hc : mask[i]? = some cur_byte) : ∀ (count j res : Nat),
    j + count ≤ 8 → i * 8 + j + count ≤ size_in_bits →
    get_num_1_cell size_in_bits i cur_byte count j res
      = res + count_1 mask (8 * i + j) count := by
  intro count
  induction count with
  | zero =>
    intro j res _ _
    simp [get_num_1_cell, count_1]
  | succ c ih =>
    intro j res hj hn
    have hne : ¬ i * 8 + j = size_in_bits := by omega
    have hbit := mask_bit_of_getElem mask i j cur_byte hc (by omega)
    simp only [get_num_1_cell, if_neg hne]
    rw [ih (j + 1) _ (by omega) (by omega)]
    have e : 8 * i + (j + 1) = 8 * i + j + 1 := by omega
    unfold count_1
    rw [List.range'_succ, List.countP_cons, hbit, e]
    by_cases hb : cur_byte.val.testBit j = true
    · have := (cell_and_shift cur_byte j).mpr hb
      rw [if_pos this]
      simp [hb]
      omega
    · have : ¬ cur_byte.val &&& (1 <<< j) ≠ 0 := fun hh => hb ((cell_and_shift cur_byte j).mp hh)
      rw [if_neg this]
      simp [hb]

theorem count_1_append (mask : List cell_t) (s m n : Nat) :
    count_1 mask s (m + n) = count_1 mask s m + count_1 mask (s + m) n := by
  unfold count_1
  rw [Nat.add_comm m n, ← List.range'_append_1 s m n, List.countP_append]

theorem get_num_1_loop_spec (bf : bitfield_t) : ∀ (count i res : Nat),
    i + count ≤ bf.mask.length → 8 * (i + count) ≤ bf.size_in_bits →
    get_num_1_loop bf count i res = some (res + count_1 bf.mask (8 * i) (8 * count)) := by
  intro count
  induction count with
  | zero =>
    intro i res _ _
    simp [get_num_1_loop, count_1]
  | succ c ih =>
    intro i res hl hn
    have hlt : i < bf.mask.length := by omega
    have ht : bf.mask[i]? = some bf.mask[i] := List.getElem?_eq_getElem hlt
    simp only [get_num_1_loop, ht]
    rw [ih (i + 1) _ (by omega) (by omega),
      get_num_1_cell_spec bf.mask bf.size_in_bits i _ ht 8 0 res (by omega) (by omega)]
    have e : 8 * (c + 1) = 8 + 8 * c := by omega
    rw [e, count_1_append]
    have e2 : 8 * (i + 1) = 8 * i + 8 := by omega
    rw [e2]
    simp only [Nat.add_zero, Nat.add_assoc]

theorem get_num_1_spec (bf : bitfield_t) (h : allocated bf) :
    bitfield_get_num_1 (some bf)
      = some (count_1 bf.mask 0 (8 * (bf.size_in_bits / 8))) := by
  unfold allocated at h
  have := get_num_1_loop_spec bf (bf.size_in_bits / 8) 0 0 (by omega) (by omega)
  simpa [bitfield_get_num_1] using this

/-! ## The operators, bit by bit -/

theorem bitfield_and_bits (a b : bitfield_t) (ha : allocated a) (hb : allocated b) :
    ∃ m, bitfield_and (some a) (some b)
        = some (some { mask := m, size_in_bits := a.size_in_bits }) ∧
      m.length = a.mask.length ∧
      ∀ k, mask_bit m k =
        if k / 8 < min a.size_in_bits b.size_in_bits / 8
        then and_bit b.mask (min a.size_in_bits b.size_in_bits)
          (min a.size_in_bits b.size_in_bits / 8) k (mask_bit a.mask k)
        else mask_bit a.mask k := by
  unfold allocated at ha hb
  have h1 : min a.size_in_bits b.size_in_bits / 8 ≤ a.mask.length :=
    Nat.le_trans (Nat.div_le_div_right (Nat.min_le_left _ _)) ha
  have h2 : min a.size_in_bits b.size_in_bits / 8 ≤ b.mask.length :=
    Nat.le_trans (Nat.div_le_div_right (Nat.min_le_right _ _)) hb
  obtain ⟨m, e, l, bm⟩ := and_loop_spec b.mask (min a.size_in_bits b.size_in_bits)
    (min a.size_in_bits b.size_in_bits / 8) (min a.size_in_bits b.size_in_bits / 8) 0 a.mask
    (by omega) (by omega)
  refine ⟨m, by simp only [bitfield_and, e], l, ?_⟩
  intro k
  rw [bm k]
  by_cases hk : k / 8 < min a.size_in_bits b.size_in_bits / 8
  · rw [if_pos hk, if_pos (by omega)]
  · rw [if_neg hk, if_neg (by omega)]

theorem bitfield_or_bits (a b : bitfield_t) (ha : allocated a) (hb : allocated b) :
    ∃ m, bitfield_or (some a) (some b)
        = some (some { mask := m, size_in_bits := a.size_in_bits }) ∧
      m.length = a.mask.length ∧
      ∀ k, mask_bit m k =
        if k / 8 < min a.size_in_bits b.size_in_bits / 8
        then or_bit b.mask (min a.size_in_bits b.size_in_bits)
          (min a.size_in_bits b.size_in_bits / 8) k (mask_bit a.mask k)
        else mask_bit a.mask k := by
  unfold allocated at ha hb
  have h1 : min a.size_in_bits b.size_in_bits / 8 ≤ a.mask.length :=
    Nat.le_trans (Nat.div_le_div_right (Nat.min_le_left _ _)) ha
  have h2 : min a.size_in_bits b.size_in_bits / 8 ≤ b.mask.length :=
    Nat.le_trans (Nat.div_le_div_right (Nat.min_le_right _ _)) hb
  obtain ⟨m, e, l, bm⟩ := or_loop_spec b.mask (min a.size_in_bits b.size_in_bits)
    (min a.size_in_bits b.size_in_bits / 8) (min a.size_in_bits b.size_in_bits / 8) 0 a.mask
    (by omega) (by omega)
  refine ⟨m, by simp only [bitfield_or, e], l, ?_⟩
  intro k
  rw [bm k]
  by_cases hk : k / 8 < min a.size_in_bits b.size_in_bits / 8
  · rw [if_pos hk, if_pos (by omega)]
  · rw [if_neg hk, if_neg (by omega)]

theorem bitfield_not_bits (a : bitfield_t) (ha : allocated a) :
    ∃ m, bitfield_not (some a) = some (some { mask := m, size_in_bits := a.size_in_bits }) ∧
      m.length = a.mask.length ∧
      ∀ k, mask_bit m k =
        if k / 8 < a.size_in_bits / 8 ∧
          (k / 8 + 1 = a.size_in_bits / 8 → k % 8 < a.size_in_bits % 8)
        then (mask_bit a.mask k).map (fun b => !b)
        else mask_bit a.mask k := by
  unfold allocated at ha
  obtain ⟨m, e, l, bm⟩ := not_loop_spec a.size_in_bits (a.size_in_bits / 8)
    (a.size_in_bits / 8) 0 a.mask (by omega)
  refine ⟨m, by simp only [bitfield_not, e], l, ?_⟩
  intro k
  rw [bm k]
  by_cases hk : k / 8 < a.size_in_bits / 8 ∧
      (k / 8 + 1 = a.size_in_bits / 8 → k % 8 < a.size_in_bits % 8)
  · rw [if_pos hk, if_pos ⟨by omega, by omega, hk.2⟩]
  · rw [if_neg hk, if_neg (fun hh => hk ⟨by omega, hh.2.2⟩)]

/-! ## Properties of the setters -/

/-- C6: on a present mask of size `n`, for an offset `< n` whose byte
`offset / 8` lies in the buffer, `bitfield_set_mask_bit` returns `0`, the bit at
byte `offset / 8`, position `offset % 8` is afterwards 1 when `value` is true
(nonzero) and 0 when it is false, every other bit of the buffer is unchanged,
and so are the size and the length of the buffer. -/
theorem bitfield_set_mask_bit_sets_bit (bf : bitfield_t) (value : Int) (offset_in_bits : Nat)
    (h : offset_in_bits < bf.size_in_bits) (hbuf : offset_in_bits / 8 < bf.mask.length) :
    ∃ m, bitfield_set_mask_bit (some bf) value offset_in_bits
        = some (0, some { mask := m, size_in_bits := bf.size_in_bits }) ∧
      m.length = bf.mask.length ∧
      m[offset_in_bits / 8]?.map (fun b => b.val.testBit (offset_in_bits % 8))
        = some (decide (value ≠ 0)) ∧
      mask_bit m offset_in_bits = some (decide (value ≠ 0)) ∧
      ∀ k, k ≠ offset_in_bits → mask_bit m k = mask_bit bf.mask k := by
  have hge : ¬ offset_in_bits ≥ bf.size_in_bits := by omega
  have step : ∃ m, (if value ≠ 0 then bitfield_set_0 bf.mask offset_in_bits
        else bitfield_set_1 bf.mask offset_in_bits) = some m ∧ m.length = bf.mask.length ∧
      ∀ k, mask_bit m k =
        if k = offset_in_bits then some (decide (value ≠ 0)) else mask_bit bf.mask k := by
    by_cases hv : value ≠ 0
    · obtain ⟨m, h1⟩ := set_0_some bf.mask offset_in_bits hbuf
      have sp := set_0_spec bf.mask m _ h1
      refine ⟨m, by rw [if_pos hv]; exact h1, sp.1, ?_⟩
      intro k
      rw [sp.2.2 k]
      simp [hv]
    · obtain ⟨m, h1⟩ := set_1_some bf.mask offset_in_bits hbuf
      have sp := set_1_spec bf.mask m _ h1
      refine ⟨m, by rw [if_neg hv]; exact h1, sp.1, ?_⟩
      intro k
      rw [sp.2.2 k]
      simp [hv]
  obtain ⟨m, e, l, b⟩ := step
  have hb := b offset_in_bits
  rw [if_pos rfl] at hb
  refine ⟨m, ?_, l, ?_, hb, ?_⟩
  · simp only [bitfield_set_mask_bit, if_neg hge, e]
  · unfold mask_bit at hb
    cases hm : m[offset_in_bits / 8]? with
    | none => rw [hm] at hb; simp at hb
    | some c => rw [hm] at hb; simpa using hb
  · intro k hk
    rw [b k, if_neg hk]

theorem bitfield_set_mask_bit_sets_bit_witness :
    ∃ m, bitfield_set_mask_bit (some ⟨[0, 255], 16⟩) 0 11 = some (0, some ⟨m, 16⟩) ∧
      m.length = 2 ∧
      m[11 / 8]?.map (fun b => b.val.testBit (11 % 8)) = some (decide ((0 : Int) ≠ 0)) ∧
      mask_bit m 11 = some (decide ((0 : Int) ≠ 0)) ∧
      ∀ k, k ≠ 11 → mask_bit m k = mask_bit [0, 255] k :=
  bitfield_set_mask_bit_sets_bit ⟨[0, 255], 16⟩ 0 11 (by decide) (by decide)

/-- C5: on a present mask of size `n`, for a range with
`offset_in_bits + num_bits < n` (the sum not overflowing `size_t`) whose bytes
lie in the buffer, `bitfield_set_mask_bits` returns `0`, every bit of
`[offset_in_bits, offset_in_bits + num_bits)` is afterwards equal to `value`,
every other bit is unchanged, and with `num_bits = 0` the mask is left exactly
as it was. -/
theorem bitfield_set_mask_bits_sets_range (w : Nat) (bf : bitfield_t) (value : Int)
    (offset_in_bits num_bits : Nat)
    (hw : offset_in_bits + num_bits < 2 ^ w)
    (h : offset_in_bits + num_bits < bf.size_in_bits)
    (hbuf : ∀ k, offset_in_bits ≤ k → k < offset_in_bits + num_bits → k / 8 < bf.mask.length) :
    ∃ m, bitfield_set_mask_bits w (some bf) value offset_in_bits num_bits
        = some (0, some { mask := m, size_in_bits := bf.size_in_bits }) ∧
      m.length = bf.mask.length ∧
      (∀ k, offset_in_bits ≤ k → k < offset_in_bits + num_bits →
        mask_bit m k = some (decide (value ≠ 0))) ∧
      (∀ k, ¬ (offset_in_bits ≤ k ∧ k < offset_in_bits + num_bits) →
        mask_bit m k = mask_bit bf.mask k) ∧
      (num_bits = 0 → m = bf.mask) := by
  have hmod : (offset_in_bits + num_bits) % 2 ^ w = offset_in_bits + num_bits :=
    Nat.mod_eq_of_lt hw
  have hge : ¬ offset_in_bits + num_bits ≥ bf.size_in_bits := by omega
  have hsub : offset_in_bits + num_bits - offset_in_bits = num_bits := by omega
  obtain ⟨m, e, l, b⟩ := set_mask_bits_loop_spec value num_bits offset_in_bits bf.mask hbuf
  by_cases hz : num_bits = 0
  · subst hz
    refine ⟨bf.mask, ?_, rfl, ?_, ?_, fun _ => rfl⟩
    · simp only [bitfield_set_mask_bits, hmod, if_neg hge]
      simp
    · intro k h1 h2
      omega
    · intro k _
      rfl
  · refine ⟨m, ?_, l, ?_, ?_, fun h0 => absurd h0 hz⟩
    · simp only [bitfield_set_mask_bits, hmod, if_neg hge, hsub, e]
      simp [hz]
    · intro k h1 h2
      rw [b k, if_pos ⟨h1, h2⟩]
    · intro k hk
      rw [b k, if_neg hk]

theorem bitfield_set_mask_bits_sets_range_witness :
    ∃ m, bitfield_set_mask_bits 64 (some ⟨[0, 0], 16⟩) 1 3 9 = some (0, some ⟨m, 16⟩) ∧
      m.length = 2 ∧
      (∀ k, 3 ≤ k → k < 3 + 9 → mask_bit m k = some (decide ((1 : Int) ≠ 0))) ∧
      (∀ k, ¬ (3 ≤ k ∧ k < 3 + 9) → mask_bit m k = mask_bit [0, 0] k) ∧
      (9 = 0 → m = [0, 0]) :=
  bitfield_set_mask_bits_sets_range 64 ⟨[0, 0], 16⟩ 1 3 9 (by decide) (by decide)
    (by intro k _ h2; show k / 8 < 2; omega)

/-- C7: `bitfield_set_mask_bits` evaluated where it fails to reject. With a
64-bit `size_t`, on a 16-bit mask the call with `offset_in_bits = 2 ^ 64 - 1`
(which is `≥ 16`) and `num_bits = 2` has the sum wrap to `1 < 16`; it is not
rejected with `EINVAL`: it returns `0`, writing nothing. -/
theorem bitfield_set_mask_bits_wrap_accepted :
    (2 ^ 64 - 1 : Nat) ≥ (bitfield_t.mk [0, 0] 16).size_in_bits ∧
    bitfield_set_mask_bits 64 (some ⟨[0, 0], 16⟩) 1 (2 ^ 64 - 1) 2
      = some (0, some ⟨[0, 0], 16⟩) ∧
    (0 : Int) ≠ EINVAL := by
  decide

/-- The bound check of `bitfield_set_mask_bits`: it returns `EINVAL` and leaves
the mask unmodified whenever the `size_t` sum `(offset_in_bits + num_bits) % 2 ^ w` is
`≥ size_in_bits`, hence whenever `offset_in_bits ≥ size_in_bits` and the sum
does not wrap; a call that is not rejected returns `0` and, its bytes lying in
the buffer, sets every bit of
`[offset_in_bits, (offset_in_bits + num_bits) % 2 ^ w)` and changes no other
bit: a range is never applied in part. -/
theorem bitfield_set_mask_bits_check (w : Nat) (bf : bitfield_t) (value : Int)
    (offset_in_bits num_bits : Nat) :
    ((offset_in_bits + num_bits) % 2 ^ w ≥ bf.size_in_bits →
      bitfield_set_mask_bits w (some bf) value offset_in_bits num_bits
        = some (EINVAL, some bf)) ∧
    (offset_in_bits ≥ bf.size_in_bits → offset_in_bits + num_bits < 2 ^ w →
      bitfield_set_mask_bits w (some bf) value offset_in_bits num_bits
        = some (EINVAL, some bf)) ∧
    ((offset_in_bits + num_bits) % 2 ^ w < bf.size_in_bits →
      (∀ k, offset_in_bits ≤ k → k < (offset_in_bits + num_bits) % 2 ^ w →
        k / 8 < bf.mask.length) →
      ∃ m, bitfield_set_mask_bits w (some bf) value offset_in_bits num_bits
          = some (0, some { mask := m, size_in_bits := bf.size_in_bits }) ∧
        ∀ k, mask_bit m k =
          if offset_in_bits ≤ k ∧ k < (offset_in_bits + num_bits) % 2 ^ w
          then some (decide (value ≠ 0)) else mask_bit bf.mask k) := by
  refine ⟨?_, ?_, ?_⟩
  · intro h
    simp only [bitfield_set_mask_bits, if_pos h]
  · intro h hw
    have hmod : (offset_in_bits + num_bits) % 2 ^ w = offset_in_bits + num_bits :=
      Nat.mod_eq_of_lt hw
    have h2 : (offset_in_bits + num_bits) % 2 ^ w ≥ bf.size_in_bits := by omega
    simp only [bitfield_set_mask_bits, if_pos h2]
  · intro h hbuf
    have hge : ¬ (offset_in_bits + num_bits) % 2 ^ w ≥ bf.size_in_bits := by omega
    obtain ⟨m, e, l, b⟩ := set_mask_bits_loop_spec value
      ((offset_in_bits + num_bits) % 2 ^ w - offset_in_bits) offset_in_bits bf.mask
      (by intro o h1 h2; exact hbuf o h1 (by omega))
    by_cases hz : num_bits = 0
    · subst hz
      refine ⟨bf.mask, ?_, ?_⟩
      · simp only [bitfield_set_mask_bits, if_neg hge]
        simp
      · intro k
        have hle : (offset_in_bits + 0) % 2 ^ w ≤ offset_in_bits := Nat.mod_le _ _
        rw [if_neg (by omega)]
    · refine ⟨m, ?_, ?_⟩
      · simp only [bitfield_set_mask_bits, if_neg hge, e]
        simp [hz]
      · intro k
        rw [b k]
        by_cases hk : offset_in_bits ≤ k ∧ k < (offset_in_bits + num_bits) % 2 ^ w
        · rw [if_pos hk, if_pos (by omega)]
        · rw [if_neg hk, if_neg (by omega)]

theorem bitfield_set_mask_bits_check_example :
    bitfield_set_mask_bits 64 (some ⟨[0, 0], 16⟩) 1 4 12 = some (EINVAL, some ⟨[0, 0], 16⟩) ∧
    bitfield_set_mask_bits 64 (some ⟨[0, 0], 16⟩) 1 16 3 = some (EINVAL, some ⟨[0, 0], 16⟩) ∧
    ∃ m, bitfield_set_mask_bits 64 (some ⟨[0, 0], 16⟩) 1 4 11 = some (0, some ⟨m, 16⟩) ∧
      ∀ k, mask_bit m k =
        if 4 ≤ k ∧ k < (4 + 11) % 2 ^ 64 then some (decide ((1 : Int) ≠ 0))
        else mask_bit [0, 0] k :=
  ⟨(bitfield_set_mask_bits_check 64 ⟨[0, 0], 16⟩ 1 4 12).1 (by decide),
   (bitfield_set_mask_bits_check 64 ⟨[0, 0], 16⟩ 1 16 3).2.1 (by decide) (by decide),
   (bitfield_set_mask_bits_check 64 ⟨[0, 0], 16⟩ 1 4 11).2.2 (by decide)
     (by intro k _ h2; show k / 8 < 2; omega)⟩

/-- C8: whenever the byte addressed by an accepted offset lies in the buffer,
`bitfield_set_mask_bit` returns, and it returns `EINVAL` if and only if the
handle is absent or `offset_in_bits ≥ size_in_bits`; in that case the mask is
left unmodified, and otherwise the returned value is `0`. -/
theorem bitfield_set_mask_bit_einval_iff (bitfield : Option bitfield_t) (value : Int)
    (offset_in_bits : Nat)
    (hbuf : ∀ bf, bitfield = some bf → offset_in_bits < bf.size_in_bits →
      offset_in_bits / 8 < bf.mask.length) :
    ∃ rc after, bitfield_set_mask_bit bitfield value offset_in_bits = some (rc, after) ∧
      (rc = EINVAL ↔
        (bitfield = none ∨ ∃ bf, bitfield = some bf ∧ offset_in_bits ≥ bf.size_in_bits)) ∧
      (rc = EINVAL → after = bitfield) ∧
      (rc ≠ EINVAL → rc = 0) := by
  cases bitfield with
  | none =>
    refine ⟨EINVAL, none, rfl, ?_, fun _ => rfl, fun h => absurd rfl h⟩
    simp
  | some bf =>
    by_cases hge : offset_in_bits ≥ bf.size_in_bits
    · refine ⟨EINVAL, some bf, ?_, ?_, fun _ => rfl, fun h => absurd rfl h⟩
      · simp only [bitfield_set_mask_bit, if_pos hge]
      · simp [hge]
    · have hq := hbuf bf rfl (by omega)
      have step : ∃ m, (if value ≠ 0 then bitfield_set_0 bf.mask offset_in_bits
            else bitfield_set_1 bf.mask offset_in_bits) = some m := by
        by_cases hv : value ≠ 0
        · rw [if_pos hv]; exact set_0_some bf.mask offset_in_bits hq
        · rw [if_neg hv]; exact set_1_some bf.mask offset_in_bits hq
      obtain ⟨m, e⟩ := step
      have hne : (0 : Int) ≠ EINVAL := by decide
      refine ⟨0, some { bf with mask := m }, ?_, ?_, fun h => absurd h hne, fun _ => rfl⟩
      · simp only [bitfield_set_mask_bit, if_neg hge, e]
      · constructor
        · intro h; exact absurd h hne
        · intro h
          rcases h with h | ⟨bf2, h1, h2⟩
          · cases h
          · cases h1; exact absurd h2 hge

theorem bitfield_set_mask_bit_einval_iff_witness :
    ∃ rc after, bitfield_set_mask_bit (some ⟨[0, 0], 16⟩) 1 5 = some (rc, after) ∧
      (rc = EINVAL ↔
        ((some (bitfield_t.mk [0, 0] 16) = none) ∨
          ∃ bf, some (bitfield_t.mk [0, 0] 16) = some bf ∧ 5 ≥ bf.size_in_bits)) ∧
      (rc = EINVAL → after = some ⟨[0, 0], 16⟩) ∧
      (rc ≠ EINVAL → rc = 0) :=
  bitfield_set_mask_bit_einval_iff (some ⟨[0, 0], 16⟩) 1 5
    (by intro bf h1 _; cases h1; decide)

/-! ## Properties of the operators -/

/-- C9: for two present masks `a` and `b` of any sizes, each with its
`size_in_bits / 8` bytes allocated, `bitfield_and a b` and `bitfield_or a b`
return, leave every bit of `a` at an index `≥ min a.size_in_bits b.size_in_bits`
identical, and leave the size of `a` and the length of its buffer unchanged
(`b` is read only: it is no part of what the operators produce). -/
theorem bitfield_and_or_frame (a b : bitfield_t) (ha : allocated a) (hb : allocated b) :
    ∃ m1 m2,
      bitfield_and (some a) (some b)
        = some (some { mask := m1, size_in_bits := a.size_in_bits }) ∧
      bitfield_or (some a) (some b)
        = some (some { mask := m2, size_in_bits := a.size_in_bits }) ∧
      m1.length = a.mask.length ∧ m2.length = a.mask.length ∧
      ∀ k, min a.size_in_bits b.size_in_bits ≤ k →
        mask_bit m1 k = mask_bit a.mask k ∧ mask_bit m2 k = mask_bit a.mask k := by
  unfold allocated at ha hb
  have h1 : min a.size_in_bits b.size_in_bits / 8 ≤ a.mask.length :=
    Nat.le_trans (Nat.div_le_div_right (Nat.min_le_left _ _)) ha
  have h2 : min a.size_in_bits b.size_in_bits / 8 ≤ b.mask.length :=
    Nat.le_trans (Nat.div_le_div_right (Nat.min_le_right _ _)) hb
  obtain ⟨m1, e1, l1, b1⟩ := and_loop_spec b.mask (min a.size_in_bits b.size_in_bits)
    (min a.size_in_bits b.size_in_bits / 8) (min a.size_in_bits b.size_in_bits / 8) 0 a.mask
    (by omega) (by omega)
  obtain ⟨m2, e2, l2, b2⟩ := or_loop_spec b.mask (min a.size_in_bits b.size_in_bits)
    (min a.size_in_bits b.size_in_bits / 8) (min a.size_in_bits b.size_in_bits / 8) 0 a.mask
    (by omega) (by omega)
  refine ⟨m1, m2, ?_, ?_, l1, l2, ?_⟩
  · simp only [bitfield_and, e1]
  · simp only [bitfield_or, e2]
  · intro k hk
    have hq : ¬ (0 ≤ k / 8 ∧ k / 8 < 0 + min a.size_in_bits b.size_in_bits / 8) := by omega
    rw [b1 k, b2 k, if_neg hq, if_neg hq]
    exact ⟨rfl, rfl⟩

theorem bitfield_and_or_frame_witness :
    ∃ m1 m2,
      bitfield_and (some ⟨[15, 255, 170], 24⟩) (some ⟨[85, 0], 19⟩) = some (some ⟨m1, 24⟩) ∧
      bitfield_or (some ⟨[15, 255, 170], 24⟩) (some ⟨[85, 0], 19⟩) = some (some ⟨m2, 24⟩) ∧
      m1.length = 3 ∧ m2.length = 3 ∧
      ∀ k, min 24 19 ≤ k →
        mask_bit m1 k = mask_bit [15, 255, 170] k ∧
        mask_bit m2 k = mask_bit [15, 255, 170] k :=
  bitfield_and_or_frame ⟨[15, 255, 170], 24⟩ ⟨[85, 0], 19⟩ (by decide) (by decide)

/-- C10: on a present mask of any size with its `size_in_bits / 8` bytes
allocated, `bitfield_not` returns, and applying it a second time gives back the
original mask, the whole buffer included. -/
theorem bitfield_not_involution (bf : bitfield_t) (h : allocated bf) :
    ∃ bf1, bitfield_not (some bf) = some (some bf1) ∧
      bitfield_not (some bf1) = some (some bf) := by
  unfold allocated at h
  obtain ⟨m1, e1, l1, b1⟩ := not_loop_spec bf.size_in_bits (bf.size_in_bits / 8)
    (bf.size_in_bits / 8) 0 bf.mask (by omega)
  obtain ⟨m2, e2, l2, b2⟩ := not_loop_spec bf.size_in_bits (bf.size_in_bits / 8)
    (bf.size_in_bits / 8) 0 m1 (by omega)
  have hm : m2 = bf.mask := by
    apply mask_ext _ _ (by omega)
    intro k
    rw [b2 k, b1 k]
    split
    · cases mask_bit bf.mask k with
      | none => rfl
      | some x => simp
    · rfl
  refine ⟨{ mask := m1, size_in_bits := bf.size_in_bits }, ?_, ?_⟩
  · simp only [bitfield_not, e1]
  · simp only [bitfield_not, e2, hm]

theorem bitfield_not_involution_witness :
    ∃ bf1, bitfield_not (some ⟨[15, 255, 170], 21⟩) = some (some bf1) ∧
      bitfield_not (some bf1) = some (some ⟨[15, 255, 170], 21⟩) :=
  bitfield_not_involution ⟨[15, 255, 170], 21⟩ (by decide)

/-! ## Where the operators and the count depart from their documentation -/

/-- C1: `bitfield_and` evaluated where it is not the conjunction. On two 8-bit
masks `0xFF` and `0x00` the target stays `0xFF`: bit 0 is still 1 although the
source bit is 0. On two 9-bit masks that are all zero, bit 0 of the target
becomes 1: where the source bit is 0 the target bit is set, not cleared. -/
theorem bitfield_and_not_conjunction :
    bitfield_and (some ⟨[255], 8⟩) (some ⟨[0], 8⟩) = some (some ⟨[255], 8⟩) ∧
    mask_bit [255] 0 ≠ some (true && false) ∧
    bitfield_and (some ⟨[0, 0], 9⟩) (some ⟨[0, 0], 9⟩) = some (some ⟨[1, 0], 9⟩) ∧
    mask_bit [1, 0] 0 ≠ some (false && false) := by
  decide

/-- C2: `bitfield_or` evaluated where it is not the disjunction. On two 8-bit
masks `0x00` and `0xFF` the target stays `0x00`: bit 0 is still 0 although the
source bit is 1. On two 9-bit masks that are all ones in their first byte,
bit 0 of the target becomes 0: where the source bit is 1 the target bit is
cleared, not set. -/
theorem bitfield_or_not_disjunction :
    bitfield_or (some ⟨[0], 8⟩) (some ⟨[255], 8⟩) = some (some ⟨[0], 8⟩) ∧
    mask_bit [0] 0 ≠ some (false || true) ∧
    bitfield_or (some ⟨[255, 0], 9⟩) (some ⟨[255, 0], 9⟩) = some (some ⟨[254, 0], 9⟩) ∧
    mask_bit [254, 0] 0 ≠ some (true || true) := by
  decide

/-- C3: `bitfield_not` evaluated where it does not flip. An 8-bit mask `0x00`
is left `0x00`; of a 16-bit mask `0x00 0x00` only the first byte is
complemented, bits 8 to 15 keep their value. -/
theorem bitfield_not_keeps_last_byte :
    bitfield_not (some ⟨[0], 8⟩) = some (some ⟨[0], 8⟩) ∧
    mask_bit [0] 0 ≠ some (!false) ∧
    bitfield_not (some ⟨[0, 0], 16⟩) = some (some ⟨[255, 0], 16⟩) ∧
    mask_bit [255, 0] 8 ≠ some (!false) := by
  decide

/-- C4: `bitfield_get_num_1` evaluated on a 12-bit mask held in two bytes
`0x00 0x01`: bit 8 is 1 and lies inside `[0, 12)`, one bit is set in that range,
and the function returns 0. -/
theorem bitfield_get_num_1_skips_last_bits :
    bitfield_get_num_1 (some ⟨[0, 1], 12⟩) = some 0 ∧
    mask_bit [0, 1] 8 = some true ∧
    count_1 [0, 1] 0 12 = 1 := by
  decide

/-- C11: `bitfield_and` with an all-zero mask of the same size, evaluated where
it does not clear the target. On the 16-bit mask `0xFF 0xFF` the result is
`0x00 0xFF`: bits 8 to 15 are still 1 and `bitfield_get_num_1` returns 8. On
the 12-bit mask `0x00` the result is `0x0F`: four bits were set. -/
theorem bitfield_and_zero_keeps_bits :
    bitfield_and (some ⟨[255, 255], 16⟩) (some ⟨[0, 0], 16⟩)
      = some (some ⟨[0, 255], 16⟩) ∧
    mask_bit [0, 255] 8 = some true ∧
    bitfield_get_num_1 (some ⟨[0, 255], 16⟩) = some 8 ∧
    bitfield_and (some ⟨[0], 12⟩) (some ⟨[0], 12⟩) = some (some ⟨[15], 12⟩) ∧
    bitfield_get_num_1 (some ⟨[15], 12⟩) = some 4 := by
  decide

/-- C12: `bitfield_and` of a mask with a copy of itself, evaluated where it
changes the mask. On the 12-bit mask `0x05` the result is `0x0F`: bits 1 and 3,
which are 0 in the copy, were set in the target. -/
theorem bitfield_and_copy_changes :
    bitfield_and (some ⟨[5], 12⟩) (some ⟨[5], 12⟩) = some (some ⟨[15], 12⟩) ∧
    mask_bit [5] 1 = some false ∧
    mask_bit [15] 1 = some true := by
  decide

/-- C15: `bitfield_not` and `bitfield_get_num_1` evaluated on the 8-bit mask
`0x01`: one bit is set before the negation and one bit after it, not `8 - 1`.
The scenario on 16 bits does give 12 and then 4: the twelve bits set by
`bitfield_set_mask_bits` fill the first byte, which is complemented, and half of
the second byte, which is left as it is. -/
theorem bitfield_not_count_not_complement :
    bitfield_get_num_1 (some ⟨[1], 8⟩) = some 1 ∧
    bitfield_not (some ⟨[1], 8⟩) = some (some ⟨[1], 8⟩) ∧
    (1 : Nat) ≠ 8 - 1 ∧
    bitfield_set_mask_bits 64 (bitfield_create true true (fun _ => 0) 16) 1 0 12
      = some (0, some ⟨[255, 15], 16⟩) ∧
    bitfield_get_num_1 (some ⟨[255, 15], 16⟩) = some 12 ∧
    bitfield_not (some ⟨[255, 15], 16⟩) = some (some ⟨[0, 15], 16⟩) ∧
    bitfield_get_num_1 (some ⟨[0, 15], 16⟩) = some 4 := by
  decide

/-! ## Absent handles -/

/-- C17: on an absent handle `bitfield_and` and `bitfield_or` do nothing,
whichever operand is absent (the target, when present, is returned as it was),
`bitfield_not` does nothing, `bitfield_get_num_1` returns 0, and
`bitfield_set_mask_bit` and `bitfield_set_mask_bits` return `EINVAL`. -/
theorem bitfield_absent_handle (w : Nat) (tgt src : Option bitfield_t) (value : Int)
    (offset_in_bits num_bits : Nat) :
    bitfield_and none src = some none ∧
    bitfield_and tgt none = some tgt ∧
    bitfield_or none src = some none ∧
    bitfield_or tgt none = some tgt ∧
    bitfield_not none = some none ∧
    bitfield_get_num_1 none = some 0 ∧
    bitfield_set_mask_bit none value offset_in_bits = some (EINVAL, none) ∧
    bitfield_set_mask_bits w none value offset_in_bits num_bits = some (EINVAL, none) := by
  refine ⟨?_, ?_, ?_, ?_, rfl, rfl, rfl, rfl⟩
  · cases src <;> rfl
  · cases tgt <;> rfl
  · cases src <;> rfl
  · cases tgt <;> rfl

/-! ## Algebraic properties -/

/-- C13: for every mask `a` of size `n` and every mask `z` of the same size
none of whose first `n` bits is 1 (both with their `n / 8` bytes allocated),
`bitfield_or a z` returns and leaves `a` unchanged, whether or not `n` is a
multiple of 8. -/
theorem bitfield_or_zero (a z : bitfield_t) (ha : allocated a) (hz : allocated z)
    (hs : z.size_in_bits = a.size_in_bits)
    (h0 : ∀ k, k < z.size_in_bits → mask_bit z.mask k ≠ some true) :
    bitfield_or (some a) (some z) = some (some a) := by
  obtain ⟨m, e, l, bm⟩ := bitfield_or_bits a z ha hz
  have hm : m = a.mask := by
    apply mask_ext _ _ l
    intro k
    rw [bm k, hs, Nat.min_self]
    by_cases hk : k / 8 < a.size_in_bits / 8
    · rw [if_pos hk]
      have hlt : k < z.size_in_bits := by omega
      have hne := h0 k hlt
      unfold allocated at hz
      have hsome : mask_bit z.mask k = some false := by
        cases hb : mask_bit z.mask k with
        | none =>
          have := (mask_bit_eq_none z.mask k).mp hb
          omega
        | some v =>
          cases v with
          | false => rfl
          | true => exact absurd hb hne
      unfold or_bit
      by_cases hl : k / 8 + 1 = a.size_in_bits / 8
      · rw [if_pos hl, if_neg (fun hh => hne hh.2)]
      · rw [if_neg hl, hsome]
        cases mask_bit a.mask k with
        | none => rfl
        | some x => simp
    · rw [if_neg hk]
  rw [e, hm]

theorem bitfield_or_zero_witness :
    bitfield_or (some ⟨[15, 255, 170], 21⟩) (some ⟨[0, 0, 0], 21⟩)
      = some (some ⟨[15, 255, 170], 21⟩) :=
  bitfield_or_zero ⟨[15, 255, 170], 21⟩ ⟨[0, 0, 0], 21⟩ (by decide) (by decide) rfl
    (by
      intro k hk
      have hk21 : k < 21 := hk
      interval_cases k <;> decide)

/-! ## Counting bits -/

theorem count_1_all (mask : List cell_t) (s len : Nat)
    (h : ∀ k, s ≤ k → k < s + len → mask_bit mask k = some true) :
    count_1 mask s len = len := by
  unfold count_1
  have hl : (List.range' s len).length = len := List.length_range' s 1 len
  conv => rhs; rw [← hl]
  rw [List.countP_eq_length]
  intro k hk
  rw [List.mem_range'_1] at hk
  rw [h k hk.1 hk.2]
  rfl

theorem count_1_none (mask : List cell_t) (s len : Nat)
    (h : ∀ k, s ≤ k → k < s + len → mask_bit mask k ≠ some true) :
    count_1 mask s len = 0 := by
  unfold count_1
  rw [List.countP_eq_zero]
  intro k hk
  rw [List.mem_range'_1] at hk
  have := h k hk.1 hk.2
  simpa using this

theorem count_1_congr (m1 m2 : List cell_t) (s len : Nat)
    (h : ∀ k, s ≤ k → k < s + len → mask_bit m1 k = mask_bit m2 k) :
    count_1 m1 s len = count_1 m2 s len := by
  unfold count_1
  apply List.countP_congr
  intro k hk
  rw [List.mem_range'_1] at hk
  rw [h k hk.1 hk.2]

theorem set_mask_bits_run (w : Nat) (bf : bitfield_t) (value : Int)
    (offset_in_bits num_bits : Nat)
    (h : (offset_in_bits + num_bits) % 2 ^ w < bf.size_in_bits)
    (hbuf : ∀ k, offset_in_bits ≤ k → k < (offset_in_bits + num_bits) % 2 ^ w →
      k / 8 < bf.mask.length) :
    ∃ m, bitfield_set_mask_bits w (some bf) value offset_in_bits num_bits
        = some (0, some { mask := m, size_in_bits := bf.size_in_bits }) ∧
      m.length = bf.mask.length ∧
      ∀ k, mask_bit m k =
        if offset_in_bits ≤ k ∧ k < (offset_in_bits + num_bits) % 2 ^ w
        then some (decide (value ≠ 0)) else mask_bit bf.mask k := by
  have hge : ¬ (offset_in_bits + num_bits) % 2 ^ w ≥ bf.size_in_bits := by omega
  obtain ⟨m, e, l, b⟩ := set_mask_bits_loop_spec value
    ((offset_in_bits + num_bits) % 2 ^ w - offset_in_bits) offset_in_bits bf.mask
    (by intro o h1 h2; exact hbuf o h1 (by omega))
  by_cases hz : num_bits = 0
  · subst hz
    refine ⟨bf.mask, ?_, rfl, ?_⟩
    · simp only [bitfield_set_mask_bits, if_neg hge]
      simp
    · intro k
      have hle : (offset_in_bits + 0) % 2 ^ w ≤ offset_in_bits := Nat.mod_le _ _
      rw [if_neg (by omega)]
  · refine ⟨m, ?_, l, ?_⟩
    · simp only [bitfield_set_mask_bits, if_neg hge, e]
      simp [hz]
    · intro k
      rw [b k]
      by_cases hk : offset_in_bits ≤ k ∧ k < (offset_in_bits + num_bits) % 2 ^ w
      · rw [if_pos hk, if_pos (by omega)]
      · rw [if_neg hk, if_neg (by omega)]

theorem create_zero_bit (n k : Nat) :
    mask_bit ((List.range (n / 8)).map fun _ => (0 : cell_t)) k
      = if k / 8 < n / 8 then some false else none := by
  unfold mask_bit
  rw [List.getElem?_map]
  by_cases hk : k / 8 < n / 8
  · rw [List.getElem?_range hk, if_pos hk]
    simp
  · rw [List.getElem?_eq_none (by simp; omega), if_neg hk]
    rfl

/-- C14: for every positive multiple of 8 `n` (a value of `size_t`), on the mask
that `bitfield_create n` returns with an all-zero buffer of `n / 8` bytes,
`bitfield_set_mask_bits` with a true value, offset 0 and `n - 1` bits returns
`0`, `bitfield_get_num_1` then returns `n - 1`, and the call for the full range
of `n` bits is rejected with `EINVAL`, the mask left as it was. -/
theorem bitfield_create_set_count (w n : Nat) (value : Int) (hv : value ≠ 0)
    (hn : 0 < n) (h8 : n % 8 = 0) (hw : n < 2 ^ w) :
    ∃ bf bf1, bitfield_create true true (fun _ => 0) n = some bf ∧
      bf.mask.length = n / 8 ∧ bf.size_in_bits = n ∧
      bitfield_set_mask_bits w (some bf) value 0 (n - 1) = some (0, some bf1) ∧
      bitfield_get_num_1 (some bf1) = some (n - 1) ∧
      bitfield_set_mask_bits w (some bf) value 0 n = some (EINVAL, some bf) := by
  have hmod : (0 + (n - 1)) % 2 ^ w = n - 1 := by
    rw [Nat.zero_add]; exact Nat.mod_eq_of_lt (by omega)
  have hmodn : (0 + n) % 2 ^ w = n := by
    rw [Nat.zero_add]; exact Nat.mod_eq_of_lt hw
  obtain ⟨m, e, l, b⟩ := set_mask_bits_run w
    { mask := (List.range (n / 8)).map fun _ => (0 : cell_t), size_in_bits := n } value 0 (n - 1)
    (by rw [hmod]; show n - 1 < n; omega)
    (by
      intro k _ h2
      rw [hmod] at h2
      simp only [List.length_map, List.length_range]
      omega)
  simp only [List.length_map, List.length_range] at l
  refine ⟨_, { mask := m, size_in_bits := n }, rfl, by simp, rfl, e, ?_, ?_⟩
  · have hal : allocated { mask := m, size_in_bits := n } := by
      unfold allocated
      show n / 8 ≤ m.length
      omega
    rw [get_num_1_spec _ hal]
    show some (count_1 m 0 (8 * (n / 8))) = some (n - 1)
    have e8 : 8 * (n / 8) = (n - 1) + 1 := by omega
    rw [e8, count_1_append]
    have h1 : count_1 m 0 (n - 1) = n - 1 := by
      apply count_1_all
      intro k _ h2
      rw [b k, hmod, if_pos ⟨by omega, by omega⟩]
      simp [hv]
    have h2 : count_1 m (0 + (n - 1)) 1 = 0 := by
      apply count_1_none
      intro k h1 h2
      rw [b k, hmod, if_neg (by omega)]
      show mask_bit ((List.range (n / 8)).map fun _ => (0 : cell_t)) k ≠ some true
      rw [create_zero_bit]
      split <;> simp
    rw [h1, h2, Nat.add_zero]
  · have hge : (0 + n) % 2 ^ w ≥ n := by omega
    simp only [bitfield_set_mask_bits]
    rw [if_pos (by exact hge)]

theorem bitfield_create_set_count_witness :
    ∃ bf bf1, bitfield_create true true (fun _ => 0) 24 = some bf ∧
      bf.mask.length = 24 / 8 ∧ bf.size_in_bits = 24 ∧
      bitfield_set_mask_bits 64 (some bf) 1 0 (24 - 1) = some (0, some bf1) ∧
      bitfield_get_num_1 (some bf1) = some (24 - 1) ∧
      bitfield_set_mask_bits 64 (some bf) 1 0 24 = some (EINVAL, some bf) :=
  bitfield_create_set_count 64 24 1 (by decide) (by decide) (by decide) (by decide)

/-! ## Setting then clearing a bit -/

theorem set_mask_bit_run (bf : bitfield_t) (value : Int) (offset_in_bits : Nat)
    (h : offset_in_bits < bf.size_in_bits) (hbuf : offset_in_bits / 8 < bf.mask.length) :
    ∃ m, bitfield_set_mask_bit (some bf) value offset_in_bits
        = some (0, some { mask := m, size_in_bits := bf.size_in_bits }) ∧
      m.length = bf.mask.length ∧
      ∀ k, mask_bit m k =
        if k = offset_in_bits then some (decide (value ≠ 0)) else mask_bit bf.mask k := by
  have hge : ¬ offset_in_bits ≥ bf.size_in_bits := by omega
  by_cases hv : value ≠ 0
  · obtain ⟨m, h1⟩ := set_0_some bf.mask offset_in_bits hbuf
    have sp := set_0_spec bf.mask m _ h1
    refine ⟨m, ?_, sp.1, ?_⟩
    · simp only [bitfield_set_mask_bit, if_neg hge, if_pos hv, h1]
    · intro k
      rw [sp.2.2 k]
      simp [hv]
  · obtain ⟨m, h1⟩ := set_1_some bf.mask offset_in_bits hbuf
    have sp := set_1_spec bf.mask m _ h1
    refine ⟨m, ?_, sp.1, ?_⟩
    · simp only [bitfield_set_mask_bit, if_neg hge, if_neg hv, h1]
    · intro k
      rw [sp.2.2 k]
      simp [hv]

/-- C16: on a present mask of size `n`, for an offset `o < n` whose byte lies
in the buffer, `bitfield_set_mask_bit` with a true value and then with a false
value both return `0`, bit `o` is 1 in between and 0 afterwards and every other bit is as it was
at the start (the mask is restored exactly when bit `o` was 0). And
`bitfield_get_num_1` returns the same count on two masks of the same size `n`
(their `n / 8` bytes allocated) that agree on every bit of index `< n`. -/
theorem bitfield_set_clear_and_count (bf : bitfield_t) (value : Int) (o : Nat)
    (b1 b2 : bitfield_t) (hv : value ≠ 0)
    (h : o < bf.size_in_bits) (hbuf : o / 8 < bf.mask.length)
    (h1 : allocated b1) (h2 : allocated b2) (hs : b1.size_in_bits = b2.size_in_bits)
    (hb : ∀ k, k < b1.size_in_bits → mask_bit b1.mask k = mask_bit b2.mask k) :
    (∃ m1 m2,
      bitfield_set_mask_bit (some bf) value o
        = some (0, some { mask := m1, size_in_bits := bf.size_in_bits }) ∧
      mask_bit m1 o = some true ∧
      bitfield_set_mask_bit (some { mask := m1, size_in_bits := bf.size_in_bits }) 0 o
        = some (0, some { mask := m2, size_in_bits := bf.size_in_bits }) ∧
      mask_bit m2 o = some false ∧
      (∀ k, k ≠ o → mask_bit m2 k = mask_bit bf.mask k) ∧
      (mask_bit bf.mask o = some false → m2 = bf.mask)) ∧
    (∃ c, bitfield_get_num_1 (some b1) = some c ∧ bitfield_get_num_1 (some b2) = some c) := by
  constructor
  · obtain ⟨m1, e1, l1, c1⟩ := set_mask_bit_run bf value o h hbuf
    obtain ⟨m2, e2, l2, c2⟩ := set_mask_bit_run
      { mask := m1, size_in_bits := bf.size_in_bits } 0 o h (by show o / 8 < m1.length; omega)
    have hbits : ∀ k, mask_bit m2 k = if k = o then some false else mask_bit bf.mask k := by
      intro k
      rw [c2 k]
      by_cases hk : k = o
      · rw [if_pos hk, if_pos hk]; simp
      · rw [if_neg hk, if_neg hk]
        show mask_bit m1 k = _
        rw [c1 k, if_neg hk]
    refine ⟨m1, m2, e1, ?_, e2, ?_, ?_, ?_⟩
    · rw [c1 o, if_pos rfl]
      simp [hv]
    · rw [hbits o, if_pos rfl]
    · intro k hk
      rw [hbits k, if_neg hk]
    · intro h0
      apply mask_ext _ _ (by rw [l2]; exact l1)
      intro k
      rw [hbits k]
      by_cases hk : k = o
      · rw [if_pos hk, hk, h0]
      · rw [if_neg hk]
  · refine ⟨count_1 b1.mask 0 (8 * (b1.size_in_bits / 8)), get_num_1_spec b1 h1, ?_⟩
    rw [get_num_1_spec b2 h2, ← hs]
    congr 1
    apply (count_1_congr b1.mask b2.mask 0 _ _).symm
    intro k _ hk
    exact hb k (by omega)

theorem bitfield_set_clear_and_count_witness :
    (∃ m1 m2,
      bitfield_set_mask_bit (some ⟨[0, 255], 16⟩) 1 3 = some (0, some ⟨m1, 16⟩) ∧
      mask_bit m1 3 = some true ∧
      bitfield_set_mask_bit (some ⟨m1, 16⟩) 0 3 = some (0, some ⟨m2, 16⟩) ∧
      mask_bit m2 3 = some false ∧
      (∀ k, k ≠ 3 → mask_bit m2 k = mask_bit [0, 255] k) ∧
      (mask_bit [0, 255] 3 = some false → m2 = [0, 255])) ∧
    (∃ c, bitfield_get_num_1 (some ⟨[7, 1], 12⟩) = some c ∧
      bitfield_get_num_1 (some ⟨[7, 1, 9], 12⟩) = some c) :=
  bitfield_set_clear_and_count ⟨[0, 255], 16⟩ 1 3 ⟨[7, 1], 12⟩ ⟨[7, 1, 9], 12⟩
    (by decide) (by decide) (by decide) (by decide) (by decide) rfl
    (by
      intro k hk
      have hk12 : k < 12 := hk
      interval_cases k <;> decide)

/-! ## The length of the buffer -/

theorem set_0_length (mask m : List cell_t) (o : Nat) (h : bitfield_set_0 mask o = some m) :
    m.length = mask.length := (set_0_spec mask m o h).1

theorem set_1_length (mask m : List cell_t) (o : Nat) (h : bitfield_set_1 mask o = some m) :
    m.length = mask.length := (set_1_spec mask m o h).1

theorem set_mask_bits_loop_length (value : Int) :
    ∀ (count offset : Nat) (mask m : List cell_t),
    set_mask_bits_loop value count offset mask = some m → m.length = mask.length := by
  intro count
  induction count with
  | zero =>
    intro offset mask m h
    simp only [set_mask_bits_loop, Option.some.injEq] at h
    rw [← h]
  | succ c ih =>
    intro offset mask m h
    simp only [set_mask_bits_loop] at h
    cases hs : (if value ≠ 0 then bitfield_set_0 mask offset
        else bitfield_set_1 mask offset) with
    | none => rw [hs] at h; cases h
    | some m1 =>
      rw [hs] at h
      have h1 : m1.length = mask.length := by
        by_cases hv : value ≠ 0
        · rw [if_pos hv] at hs; exact set_0_length _ _ _ hs
        · rw [if_neg hv] at hs; exact set_1_length _ _ _ hs
      rw [ih _ _ _ h, h1]

theorem and_last_length (src : List cell_t) (i : Nat) :
    ∀ (count j : Nat) (tgt m : List cell_t),
    and_last src i count j tgt = some m → m.length = tgt.length := by
  intro count
  induction count with
  | zero =>
    intro j tgt m h
    simp only [and_last, Option.some.injEq] at h
    rw [← h]
  | succ c ih =>
    intro j tgt m h
    simp only [and_last] at h
    cases hsrc : src[i]? with
    | none => rw [hsrc] at h; cases h
    | some sb =>
      rw [hsrc] at h
      by_cases hc : sb.val &&& (1 <<< j) = 0
      · simp only [if_pos hc] at h
        cases hs : bitfield_set_0 tgt (8 * i + j) with
        | none => rw [hs] at h; cases h
        | some m1 =>
          rw [hs] at h
          rw [ih _ _ _ h, set_0_length _ _ _ hs]
      · simp only [if_neg hc] at h
        exact ih _ _ _ h

theorem or_last_length (src : List cell_t) (i : Nat) :
    ∀ (count j : Nat) (tgt m : List cell_t),
    or_last src i count j tgt = some m → m.length = tgt.length := by
  intro count
  induction count with
  | zero =>
    intro j tgt m h
    simp only [or_last, Option.some.injEq] at h
    rw [← h]
  | succ c ih =>
    intro j tgt m h
    simp only [or_last] at h
    cases hsrc : src[i]? with
    | none => rw [hsrc] at h; cases h
    | some sb =>
      rw [hsrc] at h
      by_cases hc : sb.val &&& (1 <<< j) ≠ 0
      · simp only [if_pos hc] at h
        cases hs : bitfield_set_1 tgt (8 * i + j) with
        | none => rw [hs] at h; cases h
        | some m1 =>
          rw [hs] at h
          rw [ih _ _ _ h, set_1_length _ _ _ hs]
      · simp only [if_neg hc] at h
        exact ih _ _ _ h

theorem not_last_length (i : Nat) :
    ∀ (count j : Nat) (tgt m : List cell_t),
    not_last i count j tgt = some m → m.length = tgt.length := by
  intro count
  induction count with
  | zero =>
    intro j tgt m h
    simp only [not_last, Option.some.injEq] at h
    rw [← h]
  | succ c ih =>
    intro j tgt m h
    simp only [not_last] at h
    cases ht : tgt[i]? with
    | none => rw [ht] at h; cases h
    | some tb =>
      rw [ht] at h
      simp only at h
      cases hs : (if tb.val &&& (1 <<< j) ≠ 0 then bitfield_set_1 tgt (8 * i + j)
          else bitfield_set_0 tgt (8 * i + j)) with
      | none => rw [hs] at h; cases h
      | some m1 =>
        rw [hs] at h
        have h1 : m1.length = tgt.length := by
          by_cases hc : tb.val &&& (1 <<< j) ≠ 0
          · rw [if_pos hc] at hs; exact set_1_length _ _ _ hs
          · rw [if_neg hc] at hs; exact set_0_length _ _ _ hs
        rw [ih _ _ _ h, h1]

theorem and_loop_length (src : List cell_t) (size_in_bits size : Nat) :
    ∀ (count i : Nat) (tgt m : List cell_t),
    and_loop src size_in_bits size count i tgt = some m → m.length = tgt.length := by
  intro count
  induction count with
  | zero =>
    intro i tgt m h
    simp only [and_loop, Option.some.injEq] at h
    rw [← h]
  | succ c ih =>
    intro i tgt m h
    simp only [and_loop] at h
    by_cases hz : i + 1 = size
    · simp only [if_pos hz] at h
      cases hs : and_last src i (size_in_bits % 8) 0 tgt with
      | none => rw [hs] at h; cases h
      | some m1 =>
        rw [hs] at h
        rw [ih _ _ _ h, and_last_length _ _ _ _ _ _ hs]
    · simp only [if_neg hz] at h
      cases ht : tgt[i]? with
      | none => rw [ht] at h; cases h
      | some tb =>
        cases hsrc : src[i]? with
        | none => rw [ht, hsrc] at h; cases h
        | some sb =>
          rw [ht, hsrc] at h
          rw [ih _ _ _ h, List.length_set]

theorem or_loop_length (src : List cell_t) (size_in_bits size : Nat) :
    ∀ (count i : Nat) (tgt m : List cell_t),
    or_loop src size_in_bits size count i tgt = some m → m.length = tgt.length := by
  intro count
  induction count with
  | zero =>
    intro i tgt m h
    simp only [or_loop, Option.some.injEq] at h
    rw [← h]
  | succ c ih =>
    intro i tgt m h
    simp only [or_loop] at h
    by_cases hz : i + 1 = size
    · simp only [if_pos hz] at h
      cases hs : or_last src i (size_in_bits % 8) 0 tgt with
      | none => rw [hs] at h; cases h
      | some m1 =>
        rw [hs] at h
        rw [ih _ _ _ h, or_last_length _ _ _ _ _ _ hs]
    · simp only [if_neg hz] at h
      cases ht : tgt[i]? with
      | none => rw [ht] at h; cases h
      | some tb =>
        cases hsrc : src[i]? with
        | none => rw [ht, hsrc] at h; cases h
        | some sb =>
          rw [ht, hsrc] at h
          rw [ih _ _ _ h, List.length_set]

theorem not_loop_length (size_in_bits size : Nat) :
    ∀ (count i : Nat) (tgt m : List cell_t),
    not_loop size_in_bits size count i tgt = some m → m.length = tgt.length := by
  intro count
  induction count with
  | zero =>
    intro i tgt m h
    simp only [not_loop, Option.some.injEq] at h
    rw [← h]
  | succ c ih =>
    intro i tgt m h
    simp only [not_loop] at h
    by_cases hz : i + 1 = size
    · simp only [if_pos hz] at h
      cases hs : not_last i (size_in_bits % 8) 0 tgt with
      | none => rw [hs] at h; cases h
      | some m1 =>
        rw [hs] at h
        rw [ih _ _ _ h, not_last_length _ _ _ _ _ hs]
    · simp only [if_neg hz] at h
      cases ht : tgt[i]? with
      | none => rw [ht] at h; cases h
      | some tb =>
        rw [ht] at h
        rw [ih _ _ _ h, List.length_set]

/-! ## The size is fixed at construction -/

/-- C18: `bitfield_create n` yields a mask with `size_in_bits = n` (and a buffer
of `n / 8` bytes), and every run of `bitfield_set_mask_bit`,
`bitfield_set_mask_bits`, `bitfield_and`, `bitfield_or` and `bitfield_not`,
whether it returns `0` or `EINVAL`, leaves the mask with the same
`size_in_bits` and a buffer of the same length (the source of a binary operator
is read only). The last three items say that these runs exist as soon as the
bytes they address are in the buffers. -/
theorem bitfield_size_fixed (w : Nat) (heap : Nat → cell_t) (n : Nat) (bf src : bitfield_t)
    (value : Int) (offset_in_bits num_bits : Nat) :
    (∃ c, bitfield_create true true heap n = some c ∧ c.size_in_bits = n ∧
      c.mask.length = n / 8) ∧
    (∀ rc after, bitfield_set_mask_bit (some bf) value offset_in_bits = some (rc, after) →
      ∃ bf1, after = some bf1 ∧ bf1.size_in_bits = bf.size_in_bits ∧
        bf1.mask.length = bf.mask.length) ∧
    (∀ rc after,
      bitfield_set_mask_bits w (some bf) value offset_in_bits num_bits = some (rc, after) →
      ∃ bf1, after = some bf1 ∧ bf1.size_in_bits = bf.size_in_bits ∧
        bf1.mask.length = bf.mask.length) ∧
    (∀ after, bitfield_and (some bf) (some src) = some after →
      ∃ bf1, after = some bf1 ∧ bf1.size_in_bits = bf.size_in_bits ∧
        bf1.mask.length = bf.mask.length) ∧
    (∀ after, bitfield_or (some bf) (some src) = some after →
      ∃ bf1, after = some bf1 ∧ bf1.size_in_bits = bf.size_in_bits ∧
        bf1.mask.length = bf.mask.length) ∧
    (∀ after, bitfield_not (some bf) = some after →
      ∃ bf1, after = some bf1 ∧ bf1.size_in_bits = bf.size_in_bits ∧
        bf1.mask.length = bf.mask.length) ∧
    (allocated bf → allocated src →
      (∃ a, bitfield_and (some bf) (some src) = some a) ∧
      (∃ a, bitfield_or (some bf) (some src) = some a) ∧
      (∃ a, bitfield_not (some bf) = some a)) ∧
    ((offset_in_bits < bf.size_in_bits → offset_in_bits / 8 < bf.mask.length) →
      ∃ r, bitfield_set_mask_bit (some bf) value offset_in_bits = some r) ∧
    (((offset_in_bits + num_bits) % 2 ^ w < bf.size_in_bits →
        ∀ k, offset_in_bits ≤ k → k < (offset_in_bits + num_bits) % 2 ^ w →
          k / 8 < bf.mask.length) →
      ∃ r, bitfield_set_mask_bits w (some bf) value offset_in_bits num_bits = some r) := by
  refine ⟨?_, ?_, ?_, ?_, ?_, ?_, ?_, ?_, ?_⟩
  · exact ⟨_, rfl, rfl, by simp⟩
  · intro rc after h
    simp only [bitfield_set_mask_bit] at h
    by_cases hge : offset_in_bits ≥ bf.size_in_bits
    · rw [if_pos hge] at h
      simp only [Option.some.injEq, Prod.mk.injEq] at h
      exact ⟨bf, h.2.symm, rfl, rfl⟩
    · rw [if_neg hge] at h
      cases hs : (if value ≠ 0 then bitfield_set_0 bf.mask offset_in_bits
          else bitfield_set_1 bf.mask offset_in_bits) with
      | none => rw [hs] at h; cases h
      | some m =>
        rw [hs] at h
        simp only [Option.some.injEq, Prod.mk.injEq] at h
        refine ⟨_, h.2.symm, rfl, ?_⟩
        by_cases hv : value ≠ 0
        · rw [if_pos hv] at hs; exact set_0_length _ _ _ hs
        · rw [if_neg hv] at hs; exact set_1_length _ _ _ hs
  · intro rc after h
    simp only [bitfield_set_mask_bits] at h
    by_cases hge : (offset_in_bits + num_bits) % 2 ^ w ≥ bf.size_in_bits
    · rw [if_pos hge] at h
      simp only [Option.some.injEq, Prod.mk.injEq] at h
      exact ⟨bf, h.2.symm, rfl, rfl⟩
    · rw [if_neg hge] at h
      by_cases hz : num_bits ≠ 0
      · rw [if_pos hz] at h
        cases hs : set_mask_bits_loop value
            ((offset_in_bits + num_bits) % 2 ^ w - offset_in_bits) offset_in_bits bf.mask with
        | none => rw [hs] at h; cases h
        | some m =>
          rw [hs] at h
          simp only [Option.some.injEq, Prod.mk.injEq] at h
          exact ⟨_, h.2.symm, rfl, set_mask_bits_loop_length _ _ _ _ _ hs⟩
      · rw [if_neg hz] at h
        simp only [Option.some.injEq, Prod.mk.injEq] at h
        exact ⟨bf, h.2.symm, rfl, rfl⟩
  · intro after h
    simp only [bitfield_and] at h
    cases hs : and_loop src.mask (min bf.size_in_bits src.size_in_bits)
        (min bf.size_in_bits src.size_in_bits / 8)
        (min bf.size_in_bits src.size_in_bits / 8) 0 bf.mask with
    | none => rw [hs] at h; cases h
    | some m =>
      rw [hs] at h
      simp only [Option.some.injEq] at h
      exact ⟨_, h.symm, rfl, and_loop_length _ _ _ _ _ _ _ hs⟩
  · intro after h
    simp only [bitfield_or] at h
    cases hs : or_loop src.mask (min bf.size_in_bits src.size_in_bits)
        (min bf.size_in_bits src.size_in_bits / 8)
        (min bf.size_in_bits src.size_in_bits / 8) 0 bf.mask with
    | none => rw [hs] at h; cases h
    | some m =>
      rw [hs] at h
      simp only [Option.some.injEq] at h
      exact ⟨_, h.symm, rfl, or_loop_length _ _ _ _ _ _ _ hs⟩
  · intro after h
    simp only [bitfield_not] at h
    cases hs : not_loop bf.size_in_bits (bf.size_in_bits / 8) (bf.size_in_bits / 8) 0
        bf.mask with
    | none => rw [hs] at h; cases h
    | some m =>
      rw [hs] at h
      simp only [Option.some.injEq] at h
      exact ⟨_, h.symm, rfl, not_loop_length _ _ _ _ _ _ hs⟩
  · intro ha hsrc
    obtain ⟨m1, e1, _⟩ := bitfield_and_bits bf src ha hsrc
    obtain ⟨m2, e2, _⟩ := bitfield_or_bits bf src ha hsrc
    obtain ⟨m3, e3, _⟩ := bitfield_not_bits bf ha
    exact ⟨⟨_, e1⟩, ⟨_, e2⟩, ⟨_, e3⟩⟩
  · intro hb
    by_cases hge : offset_in_bits ≥ bf.size_in_bits
    · exact ⟨(EINVAL, some bf), by simp only [bitfield_set_mask_bit, if_pos hge]⟩
    · obtain ⟨m, e, _⟩ := set_mask_bit_run bf value offset_in_bits (by omega) (hb (by omega))
      exact ⟨_, e⟩
  · intro hb
    by_cases hge : (offset_in_bits + num_bits) % 2 ^ w ≥ bf.size_in_bits
    · exact ⟨(EINVAL, some bf), by simp only [bitfield_set_mask_bits, if_pos hge]⟩
    · obtain ⟨m, e, _⟩ := set_mask_bits_run w bf value offset_in_bits num_bits (by omega)
        (hb (by omega))
      exact ⟨_, e⟩

theorem bitfield_size_fixed_witness :
    (∃ bf1, some (bitfield_t.mk [8, 0] 16) = some bf1 ∧ bf1.size_in_bits = 16 ∧
      bf1.mask.length = 2) ∧
    (∃ bf1, some (bitfield_t.mk [255, 1] 16) = some bf1 ∧ bf1.size_in_bits = 16 ∧
      bf1.mask.length = 2) ∧
    (∃ bf1, some (bitfield_t.mk [0, 0] 16) = some bf1 ∧ bf1.size_in_bits = 16 ∧
      bf1.mask.length = 2) ∧
    ((∃ a, bitfield_and (some ⟨[0, 0], 16⟩) (some ⟨[3], 8⟩) = some a) ∧
      (∃ a, bitfield_or (some ⟨[0, 0], 16⟩) (some ⟨[3], 8⟩) = some a) ∧
      (∃ a, bitfield_not (some ⟨[0, 0], 16⟩) = some a)) ∧
    (∃ r, bitfield_set_mask_bit (some ⟨[0, 0], 16⟩) 1 3 = some r) ∧
    (∃ r, bitfield_set_mask_bits 64 (some ⟨[0, 0], 16⟩) 1 3 9 = some r) :=
  ⟨(bitfield_size_fixed 64 (fun _ => 0) 16 ⟨[0, 0], 16⟩ ⟨[3], 8⟩ 1 3 9).2.1 0
      (some ⟨[8, 0], 16⟩) (by decide),
    (bitfield_size_fixed 64 (fun _ => 0) 16 ⟨[0, 0], 16⟩ ⟨[3], 8⟩ 1 0 9).2.2.1 0
      (some ⟨[255, 1], 16⟩) (by decide),
    (bitfield_size_fixed 64 (fun _ => 0) 16 ⟨[0, 0], 16⟩ ⟨[3], 8⟩ 1 3 9).2.2.2.1
      (some ⟨[0, 0], 16⟩) (by decide),
    (bitfield_size_fixed 64 (fun _ => 0) 16 ⟨[0, 0], 16⟩ ⟨[3], 8⟩ 1 3 9).2.2.2.2.2.2.1
      (by decide) (by decide),
    (bitfield_size_fixed 64 (fun _ => 0) 16 ⟨[0, 0], 16⟩ ⟨[3], 8⟩ 1 3 9).2.2.2.2.2.2.2.1
      (by decide),
    (bitfield_size_fixed 64 (fun _ => 0) 16 ⟨[0, 0], 16⟩ ⟨[3], 8⟩ 1 3 9).2.2.2.2.2.2.2.2
      (by intro _ k _ h2; show k / 8 < 2; omega)⟩

/-! ## Accesses and the allocated bytes -/

theorem set_mask_bit_outside (bf : bitfield_t) (value : Int) (offset_in_bits : Nat)
    (h : offset_in_bits < bf.size_in_bits) (hout : bf.mask.length ≤ offset_in_bits / 8) :
    bitfield_set_mask_bit (some bf) value offset_in_bits = none := by
  have hge : ¬ offset_in_bits ≥ bf.size_in_bits := by omega
  have hnone : bf.mask[offset_in_bits / 8]? = none := List.getElem?_eq_none hout
  have hs : (if value ≠ 0 then bitfield_set_0 bf.mask offset_in_bits
      else bitfield_set_1 bf.mask offset_in_bits) = none := by
    simp only [bitfield_set_0, bitfield_set_1, hnone]
    split <;> rfl
  simp only [bitfield_set_mask_bit, if_neg hge, hs]

/-- C19: the mask that `bitfield_create n` returns has a buffer of exactly
`n / 8` bytes. Every offset that passes the bound check of
`bitfield_set_mask_bit` (`offset < n`) addresses a byte `offset / 8` inside that
buffer if and only if `n` is a multiple of 8, and likewise every such call is a
defined run if and only if `n` is a multiple of 8; when `n` is not a multiple of
8 the offset `n - 1` passes the check and addresses byte `n / 8`, one past the
buffer. On masks `a`, `b` whose buffers have exactly `size_in_bits / 8` bytes,
`bitfield_get_num_1`, `bitfield_and`, `bitfield_or` and `bitfield_not` are
defined runs: they index no byte at or beyond `size_in_bits / 8`. -/
theorem bitfield_buffer_bounds (heap : Nat → cell_t) (n : Nat) (value : Int)
    (a b : bitfield_t) :
    ∃ bf, bitfield_create true true heap n = some bf ∧ bf.size_in_bits = n ∧
      bf.mask.length = n / 8 ∧
      ((∀ offset, offset < n → offset / 8 < bf.mask.length) ↔ n % 8 = 0) ∧
      ((∀ offset, offset < n → bitfield_set_mask_bit (some bf) value offset ≠ none)
        ↔ n % 8 = 0) ∧
      (n % 8 ≠ 0 → n - 1 < n ∧ (n - 1) / 8 = n / 8 ∧
        bitfield_set_mask_bit (some bf) value (n - 1) = none) ∧
      (a.mask.length = a.size_in_bits / 8 → b.mask.length = b.size_in_bits / 8 →
        (∃ c, bitfield_get_num_1 (some a) = some c) ∧
        (∃ r, bitfield_and (some a) (some b) = some r) ∧
        (∃ r, bitfield_or (some a) (some b) = some r) ∧
        (∃ r, bitfield_not (some a) = some r)) := by
  have hlen : ((List.range (n / 8)).map heap).length = n / 8 := by simp
  refine ⟨{ mask := (List.range (n / 8)).map heap, size_in_bits := n }, rfl, rfl, hlen,
    ?_, ?_, ?_, ?_⟩
  · show (∀ offset, offset < n → offset / 8 < ((List.range (n / 8)).map heap).length) ↔ _
    rw [hlen]
    constructor
    · intro h
      by_contra h8
      have := h (n - 1) (by omega)
      omega
    · intro h8 offset ho
      omega
  · constructor
    · intro h
      by_contra h8
      apply h (n - 1) (by omega)
      apply set_mask_bit_outside
      · show n - 1 < n; omega
      · show ((List.range (n / 8)).map heap).length ≤ (n - 1) / 8
        rw [hlen]; omega
    · intro h8 offset ho hnone
      obtain ⟨m, e, _⟩ := set_mask_bit_run
        { mask := (List.range (n / 8)).map heap, size_in_bits := n } value offset ho
        (by show offset / 8 < ((List.range (n / 8)).map heap).length; rw [hlen]; omega)
      rw [e] at hnone
      cases hnone
  · intro h8
    refine ⟨by omega, by omega, ?_⟩
    apply set_mask_bit_outside
    · show n - 1 < n; omega
    · show ((List.range (n / 8)).map heap).length ≤ (n - 1) / 8
      rw [hlen]; omega
  · intro ha hb
    have ha2 : allocated a := by unfold allocated; omega
    have hb2 : allocated b := by unfold allocated; omega
    obtain ⟨m1, e1, _⟩ := bitfield_and_bits a b ha2 hb2
    obtain ⟨m2, e2, _⟩ := bitfield_or_bits a b ha2 hb2
    obtain ⟨m3, e3, _⟩ := bitfield_not_bits a ha2
    exact ⟨⟨_, get_num_1_spec a ha2⟩, ⟨_, e1⟩, ⟨_, e2⟩, ⟨_, e3⟩⟩

theorem bitfield_buffer_bounds_witness :
    (12 - 1 < 12 ∧ (12 - 1) / 8 = 12 / 8 ∧
      bitfield_set_mask_bit (some ⟨[0], 12⟩) 1 (12 - 1) = none) ∧
    ((∃ c, bitfield_get_num_1 (some ⟨[7], 12⟩) = some c) ∧
      (∃ r, bitfield_and (some ⟨[7], 12⟩) (some ⟨[1, 2], 21⟩) = some r) ∧
      (∃ r, bitfield_or (some ⟨[7], 12⟩) (some ⟨[1, 2], 21⟩) = some r) ∧
      (∃ r, bitfield_not (some ⟨[7], 12⟩) = some r)) := by
  obtain ⟨bf, hc, _, _, _, _, h1, h2⟩ :=
    bitfield_buffer_bounds (fun _ => 0) 12 1 ⟨[7], 12⟩ ⟨[1, 2], 21⟩
  have hbf : bf = ⟨[0], 12⟩ := by
    have : bitfield_create true true (fun _ => 0) 12 = some ⟨[0], 12⟩ := by decide
    rw [this] at hc
    exact (Option.some.inj hc).symm
  subst hbf
  exact ⟨h1 (by decide), h2 (by decide) (by decide)⟩

/-! ## The offsets written by `bitfield_set_mask_bits` -/

theorem set_mask_bits_loop_fold (value : Int) : ∀ (count offset : Nat) (mask : List cell_t),
    set_mask_bits_loop value count offset mask
      = (List.range' offset count).foldlM
          (fun m o => if value ≠ 0 then bitfield_set_0 m o else bitfield_set_1 m o) mask := by
  intro count
  induction count with
  | zero =>
    intro offset mask
    rfl
  | succ c ih =>
    intro offset mask
    rw [List.range'_succ, List.foldlM_cons]
    simp only [set_mask_bits_loop]
    cases hs : (if value ≠ 0 then bitfield_set_0 mask offset
        else bitfield_set_1 mask offset) with
    | none => rfl
    | some m1 => exact ih (offset + 1) m1

theorem set_mask_bits_loop_inside (value : Int) :
    ∀ (count offset : Nat) (mask m : List cell_t),
    set_mask_bits_loop value count offset mask = some m →
    ∀ o, offset ≤ o → o < offset + count → o / 8 < mask.length := by
  intro count
  induction count with
  | zero =>
    intro offset mask m _ o h1 h2
    omega
  | succ c ih =>
    intro offset mask m h o h1 h2
    simp only [set_mask_bits_loop] at h
    cases hs : (if value ≠ 0 then bitfield_set_0 mask offset
        else bitfield_set_1 mask offset) with
    | none => rw [hs] at h; cases h
    | some m1 =>
      rw [hs] at h
      have sp : m1.length = mask.length ∧ offset / 8 < mask.length := by
        by_cases hv : value ≠ 0
        · rw [if_pos hv] at hs
          exact ⟨(set_0_spec _ _ _ hs).1, (set_0_spec _ _ _ hs).2.1⟩
        · rw [if_neg hv] at hs
          exact ⟨(set_1_spec _ _ _ hs).1, (set_1_spec _ _ _ hs).2.1⟩
      by_cases ho : o = offset
      · rw [ho]; exact sp.2
      · have := ih (offset + 1) m1 m h o (by omega) (by omega)
        omega

/-- C20: with `size_t` arithmetic wrapping modulo `2 ^ w`, whenever the bound
check of `bitfield_set_mask_bits` passes, the call is the fold of the bit setter
over a list `writes` of offsets, each of them strictly below
`size_in_bits - 1`; every defined run then returns `0` and leaves each bit of
index `≥ size_in_bits - 1` as it was; and when the sum
`offset_in_bits + num_bits` wraps, `writes` is empty and the call returns `0`
with the mask unchanged. -/
theorem bitfield_set_mask_bits_writes (w : Nat) (bf : bitfield_t) (value : Int)
    (offset_in_bits num_bits : Nat)
    (ho : offset_in_bits < 2 ^ w) (hn : num_bits < 2 ^ w)
    (h : (offset_in_bits + num_bits) % 2 ^ w < bf.size_in_bits) :
    ∃ writes : List Nat,
      bitfield_set_mask_bits w (some bf) value offset_in_bits num_bits
        = (writes.foldlM
            (fun m o => if value ≠ 0 then bitfield_set_0 m o else bitfield_set_1 m o)
            bf.mask).map
            (fun m => ((0 : Int), some { mask := m, size_in_bits := bf.size_in_bits })) ∧
      (∀ k, k ∈ writes → k < bf.size_in_bits - 1) ∧
      (∀ rc after,
        bitfield_set_mask_bits w (some bf) value offset_in_bits num_bits = some (rc, after) →
        rc = 0 ∧ ∃ m, after = some { mask := m, size_in_bits := bf.size_in_bits } ∧
          ∀ k, bf.size_in_bits - 1 ≤ k → mask_bit m k = mask_bit bf.mask k) ∧
      (2 ^ w ≤ offset_in_bits + num_bits →
        writes = [] ∧
        bitfield_set_mask_bits w (some bf) value offset_in_bits num_bits
          = some (0, some bf)) := by
  have hge : ¬ (offset_in_bits + num_bits) % 2 ^ w ≥ bf.size_in_bits := by omega
  have hwrap : 2 ^ w ≤ offset_in_bits + num_bits →
      (offset_in_bits + num_bits) % 2 ^ w - offset_in_bits = 0 := by
    intro hh
    have e : (offset_in_bits + num_bits) % 2 ^ w = offset_in_bits + num_bits - 2 ^ w := by
      rw [Nat.mod_eq_sub_mod hh]
      exact Nat.mod_eq_of_lt (by omega)
    omega
  have hcall : bitfield_set_mask_bits w (some bf) value offset_in_bits num_bits
      = (set_mask_bits_loop value ((offset_in_bits + num_bits) % 2 ^ w - offset_in_bits)
          offset_in_bits bf.mask).map
          (fun m => ((0 : Int), some { mask := m, size_in_bits := bf.size_in_bits })) := by
    simp only [bitfield_set_mask_bits, if_neg hge]
    by_cases hz : num_bits = 0
    · subst hz
      have hle : (offset_in_bits + 0) % 2 ^ w ≤ offset_in_bits := Nat.mod_le _ _
      have e0 : (offset_in_bits + 0) % 2 ^ w - offset_in_bits = 0 := by omega
      rw [e0]
      simp [set_mask_bits_loop]
    · rw [if_pos hz]
      cases set_mask_bits_loop value ((offset_in_bits + num_bits) % 2 ^ w - offset_in_bits)
          offset_in_bits bf.mask <;> rfl
  refine ⟨List.range' offset_in_bits ((offset_in_bits + num_bits) % 2 ^ w - offset_in_bits),
    ?_, ?_, ?_, ?_⟩
  · rw [hcall, set_mask_bits_loop_fold]
  · intro k hk
    rw [List.mem_range'_1] at hk
    omega
  · intro rc after hr
    rw [hcall] at hr
    cases hl : set_mask_bits_loop value
        ((offset_in_bits + num_bits) % 2 ^ w - offset_in_bits) offset_in_bits bf.mask with
    | none => rw [hl] at hr; cases hr
    | some m =>
      rw [hl] at hr
      simp only [Option.map_some', Option.some.injEq, Prod.mk.injEq] at hr
      refine ⟨hr.1.symm, m, hr.2.symm, ?_⟩
      intro k hk
      obtain ⟨m2, e2, _, b2⟩ := set_mask_bits_loop_spec value
        ((offset_in_bits + num_bits) % 2 ^ w - offset_in_bits) offset_in_bits bf.mask
        (set_mask_bits_loop_inside value _ _ _ m hl)
      rw [hl] at e2
      cases e2
      rw [b2 k, if_neg (by omega)]
  · intro hh
    rw [hwrap hh]
    refine ⟨rfl, ?_⟩
    rw [hcall, hwrap hh]
    rfl

theorem bitfield_set_mask_bits_writes_witness :
    ∃ writes : List Nat,
      bitfield_set_mask_bits 64 (some ⟨[0, 0], 16⟩) 1 (2 ^ 64 - 1) 2
        = (writes.foldlM
            (fun m o => if (1 : Int) ≠ 0 then bitfield_set_0 m o else bitfield_set_1 m o)
            [0, 0]).map
            (fun m => ((0 : Int), some { mask := m, size_in_bits := 16 })) ∧
      (∀ k, k ∈ writes → k < 16 - 1) ∧
      (∀ rc after,
        bitfield_set_mask_bits 64 (some ⟨[0, 0], 16⟩) 1 (2 ^ 64 - 1) 2 = some (rc, after) →
        rc = 0 ∧ ∃ m, after = some { mask := m, size_in_bits := 16 } ∧
          ∀ k, 16 - 1 ≤ k → mask_bit m k = mask_bit [0, 0] k) ∧
      (2 ^ 64 ≤ 2 ^ 64 - 1 + 2 →
        writes = [] ∧
        bitfield_set_mask_bits 64 (some ⟨[0, 0], 16⟩) 1 (2 ^ 64 - 1) 2
          = some (0, some ⟨[0, 0], 16⟩)) :=
  bitfield_set_mask_bits_writes 64 ⟨[0, 0], 16⟩ 1 (2 ^ 64 - 1) 2
    (by decide) (by decide) (by decide)

end Bitfield
